import Mathlib

/-!
# Verification of the thread-key sorting engine

Shallow embedding of `src/index.ts`: `sortThread` assigns Drupal-style
hierarchical base-36 sort keys to parent-referencing items and sorts the
collection by those keys; `formatThread` renders an indented listing.

Modelling conventions:
* the mutable item array is a `List ThreadSortableItem`; in-place mutation
  becomes `List.set` at the item's position;
* JavaScript string values are `String`, `undefined` is `Option.none`;
* `Array.prototype.sort` / `toSorted` (stable) is modelled by a stable
  insertion sort `sortCmp` over the integer-valued comparator;
* `localeCompare` is modelled as codepoint comparison (`listCmp`), which
  agrees with the ICU root collation on the character set the keys use;
* the unbounded recursion of `populateThreadForItem` gets explicit fuel; a
  fuel-out models the stack overflow a cyclic parent chain would cause;
* JavaScript numbers appearing here are either integers or `NaN`, modelled
  as `Option Int` with `none` = `NaN`.
-/

namespace ThreadSort

structure ThreadSortableItem where
  id : String
  parent : Option String := none
  order : Option String := none
deriving DecidableEq

structure ThreadSortOptions where
  endOfRecord : String
  delimiter : String
deriving DecidableEq

/-- The source's default options: marker `"."`, delimiter `"/"`. -/
def defaults : ThreadSortOptions := { endOfRecord := ".", delimiter := "/" }

/-- Codepoint comparison of character lists, the sign-level behaviour of
`String.prototype.localeCompare` on the key alphabet. -/
def listCmp : List Char → List Char → Int
  | [], [] => 0
  | [], _ :: _ => -1
  | _ :: _, [] => 1
  | a :: as, b :: bs => if a < b then -1 else if b < a then 1 else listCmp as bs

/-- String comparison used by the comparator. -/
def strCmpInt (a b : String) : Int := listCmp a.data b.data

/-- `compareThread` from the source: compare `order` strings when both are
defined, otherwise report equality. -/
def compareThread (a b : ThreadSortableItem) : Int :=
  match a.order, b.order with
  | some x, some y => strCmpInt x y
  | _, _ => 0

/-- Stable insertion step: `x` goes in front of the first element it does not
strictly exceed, so elements comparing equal keep their original order. -/
def insertCmp (cmp : α → α → Int) (x : α) : List α → List α
  | [] => [x]
  | y :: ys => if cmp x y > 0 then y :: insertCmp cmp x ys else x :: y :: ys

/-- Stable sort modelling `Array.prototype.sort`/`toSorted` with a
user-supplied comparator. -/
def sortCmp (cmp : α → α → Int) : List α → List α
  | [] => []
  | x :: xs => insertCmp cmp x (sortCmp cmp xs)

/-- JavaScript `String.prototype.endsWith`. -/
def jsEndsWith (s suf : String) : Bool :=
  decide (suf.data.length ≤ s.data.length ∧
    s.data.drop (s.data.length - suf.data.length) = suf.data)

/-- The string branch of `stripEor`: drop exactly one trailing character when
the (truthy) string ends with the end-of-record marker, the behaviour of
`thread.slice(0, -1)`. -/
def stripEorStr (opt : ThreadSortOptions) (s : String) : String :=
  if s ≠ "" ∧ jsEndsWith s opt.endOfRecord then String.mk s.data.dropLast else s

/-- `stripEor` from the source (`undefined` passes through). -/
def stripEor (opt : ThreadSortOptions) : Option String → Option String :=
  Option.map (stripEorStr opt)

/-- `String.prototype.padStart(2, '0')`. -/
def padStart2 (s : String) : String :=
  if s.data.length ≥ 2 then s
  else String.mk (List.replicate (2 - s.data.length) '0' ++ s.data)

/-- Base-36 digit character, lowercase, as produced by `Number.toString(36)`. -/
def digit36 (n : Nat) : Char :=
  if n < 10 then Char.ofNat (48 + n) else Char.ofNat (87 + n)

/-- Digits of `n` in base 36, most significant first (fueled so that it
reduces definitionally). -/
def toB36Go : Nat → Nat → List Char
  | 0, _ => []
  | fuel + 1, n => if n < 36 then [digit36 n] else toB36Go fuel (n / 36) ++ [digit36 (n % 36)]

/-- `n.toString(36)` for a natural number. -/
def toB36 (n : Nat) : List Char := toB36Go (n + 1) n

/-- `i.toString(36)` for an integer. -/
def intToB36 (i : Int) : String :=
  if i < 0 then "-" ++ String.mk (toB36 (-i).toNat) else String.mk (toB36 i.toNat)

/-- Successor of a JavaScript number (`NaN` is absorbing). -/
def jnumSucc : Option Int → Option Int
  | none => none
  | some i => some (i + 1)

/-- `n.toString(36)` for a JavaScript number, `NaN` included. -/
def jnumToStr36 : Option Int → String
  | none => "NaN"
  | some i => intToB36 i

/-- Value of a base-36 digit character, case-insensitive, as accepted by
`Number.parseInt(s, 36)`. -/
def digitVal36 (c : Char) : Option Nat :=
  if '0' ≤ c ∧ c ≤ '9' then some (c.toNat - 48)
  else if 'a' ≤ c ∧ c ≤ 'z' then some (c.toNat - 87)
  else if 'A' ≤ c ∧ c ≤ 'Z' then some (c.toNat - 55)
  else none

/-- Accumulate base-36 digits until the first invalid character. -/
def parse36Core : List Char → Nat → Nat
  | [], acc => acc
  | c :: cs, acc =>
    match digitVal36 c with
    | some v => parse36Core cs (acc * 36 + v)
    | none => acc

/-- `Number.parseInt(s, 36)`: parse the longest leading run of base-36
digits, `NaN` (`none`) when the first character is not a digit.  (Sign and
whitespace handling of `parseInt` is not exercised by this code's inputs.) -/
def parse36 (s : String) : Option Nat :=
  match s.data with
  | [] => none
  | c :: _ =>
    match digitVal36 c with
    | none => none
    | some _ => some (parse36Core s.data 0)

/-- Leading-match test used by `findSub`. -/
def isPreOf : List Char → List Char → Bool
  | [], _ => true
  | _ :: _, [] => false
  | a :: as, b :: bs => a == b && isPreOf as bs

/-- Index of the first occurrence of `pat` inside `l`. -/
def findSub (pat : List Char) : List Char → Option Nat
  | [] => if pat = [] then some 0 else none
  | c :: cs =>
    if isPreOf pat (c :: cs) then some 0
    else (findSub pat cs).map (· + 1)

/-- Split on a non-empty separator (fueled; `fuel > length` always
suffices because every step consumes at least one character). -/
def splitGo (sep : List Char) : Nat → List Char → List (List Char)
  | 0, l => [l]
  | fuel + 1, l =>
    match findSub sep l with
    | none => [l]
    | some i => l.take i :: splitGo sep fuel (l.drop (i + sep.length))

/-- `String.prototype.split(sep)`. -/
def strSplit (s sep : String) : List String :=
  if sep.data = [] then s.data.map (fun c => String.mk [c])
  else (splitGo sep.data (s.data.length + 1) s.data).map String.mk

/-- `Array.prototype.join(sep)`. -/
def joinSep (sep : String) : List String → String
  | [] => ""
  | [s] => s
  | s :: ss => s ++ sep ++ joinSep sep ss

/-- JavaScript truthiness of a possibly-undefined string (`!!t.order`). -/
def truthyStr : Option String → Bool
  | none => false
  | some s => s ≠ ""

/-- `getMaxThread`: the `order` of the last element of the stable sort of the
truthy-keyed items, i.e. `items.filter(t => !!t.order).toSorted(compareThread).pop()?.order`. -/
def getMaxThread (items : List ThreadSortableItem) : Option String :=
  ((sortCmp compareThread (items.filter (fun t => truthyStr t.order))).getLast?).bind
    (fun t => t.order)

/-- `getMaxThreadPerThread`: same maximum restricted to items whose `parent`
field equals `id`. -/
def getMaxThreadPerThread (items : List ThreadSortableItem) (id : String) : Option String :=
  ((sortCmp compareThread
      (items.filter (fun i => i.parent == some id && truthyStr i.order))).getLast?).bind
    (fun t => t.order)

/-- The key string computed by the root branch of `populateThreadForItem`
(lines 46–52 and 89 of the source): take the maximum existing key, strip its
marker, parse the first delimiter-separated segment as base 36 (−1 when the
maximum is undefined or empty), increment, render zero-padded, no prefix. -/
def rootKeyStr (opt : ThreadSortOptions) (items : List ThreadSortableItem) : String :=
  let max := stripEor opt (getMaxThread items)
  let parts := match max with
    | some m => strSplit m opt.delimiter
    | none => []
  let n : Option Int := match max with
    | some m => if m ≠ "" then (parse36 (parts.headD "")).map Int.ofNat else some (-1)
    | none => some (-1)
  padStart2 (jnumToStr36 (jnumSucc n)) ++ opt.endOfRecord

/-- Assignment step of the root branch: write the computed key. -/
def rootAssign (opt : ThreadSortOptions) (items : List ThreadSortableItem)
    (ci : Nat) (c : ThreadSortableItem) : List ThreadSortableItem :=
  items.set ci { c with order := some (rootKeyStr opt items) }

/-- The key string computed by the child branch (lines 54–89): prefix from
the (already populated) parent at position `pj`, then increment the last
segment of the maximum key among items whose `parent` field is `pid`. -/
def childKeyStr (opt : ThreadSortOptions) (items : List ThreadSortableItem)
    (pid : String) (pj : Nat) : String :=
  let pfx := ((stripEor opt ((items[pj]?).bind (fun t => t.order))).getD "undefined")
    ++ opt.delimiter
  let n : Option Int := match stripEor opt (getMaxThreadPerThread items pid) with
    | none => some (-1)
    | some m0 =>
      let m1 := stripEorStr opt m0
      let parts := strSplit m1 opt.delimiter
      (parse36 (parts.getD (parts.length - 1) "")).map Int.ofNat
  pfx ++ padStart2 (jnumToStr36 (jnumSucc n)) ++ opt.endOfRecord

/-- Assignment step of the child branch: write the computed key onto the
item at `ci`. -/
def childAssign (opt : ThreadSortOptions) (items : List ThreadSortableItem)
    (ci : Nat) (pid : String) (pj : Nat) : List ThreadSortableItem :=
  match items[ci]? with
  | none => items
  | some c2 => items.set ci { c2 with order := some (childKeyStr opt items pid pj) }

inductive ThreadErr where
  | fuelOut
  | parentNotFound
deriving DecidableEq

/-- `populateThreadForItem`, fueled.  `ci` is the position of the item being
populated.  A defined `order` makes the call a no-op; otherwise the root or
child branch computes and writes the key.  The explicit
`.error .parentNotFound` models the `throw new Error('Comment parent not
found')` of line 61. -/
def populateThreadForItem (opt : ThreadSortOptions) :
    Nat → List ThreadSortableItem → Nat → Except ThreadErr (List ThreadSortableItem)
  | 0, _, _ => .error .fuelOut
  | fuel + 1, items, ci =>
    match items[ci]? with
    | none => .ok items
    | some c =>
      match c.order with
      | some _ => .ok items
      | none =>
        match c.parent with
        | none => .ok (rootAssign opt items ci c)
        | some pid =>
          if (items.find? (fun it => it.id == pid)) = none then
            .ok (rootAssign opt items ci c)
          else
            match items.findIdx? (fun it => it.id == pid) with
            | none => .error .parentNotFound
            | some pj =>
              match populateThreadForItem opt fuel items pj with
              | .error e => .error e
              | .ok items' => .ok (childAssign opt items' ci pid pj)

/-- The `for (const c of items)` loop: populate each position in turn. -/
def populateLoop (opt : ThreadSortOptions) (fuel : Nat) :
    List Nat → List ThreadSortableItem → Except ThreadErr (List ThreadSortableItem)
  | [], items => .ok items
  | i :: is, items =>
    match populateThreadForItem opt fuel items i with
    | .error e => .error e
    | .ok items' => populateLoop opt fuel is items'

/-- `sortThread`: populate every item, then sort in place with
`compareThread`.  The fuel `items.length + 1` dominates every acyclic
ancestor chain. -/
def sortThread (items : List ThreadSortableItem)
    (opt : ThreadSortOptions := defaults) : Except ThreadErr (List ThreadSortableItem) :=
  match populateLoop opt (items.length + 1) (List.range items.length) items with
  | .error e => .error e
  | .ok st => .ok (sortCmp compareThread st)

/-- One line of `formatThread`: two spaces per depth level, then
` - item <id> ` and, when the `parent` field is truthy, `(parent <id>)`. -/
def formatLine (i : ThreadSortableItem) : String :=
  joinSep "" (List.replicate
      ((match i.order with
        | some o => (strSplit o "/").length
        | none => 1) - 1) "  ")
    ++ " - item " ++ i.id ++ " "
    ++ (match i.parent with
        | some p => if p ≠ "" then "(parent " ++ p ++ ")" else ""
        | none => "")

/-- `formatThread`: newline-joined lines in the array's current order. -/
def formatThread (items : List ThreadSortableItem) : String :=
  joinSep "\n" (items.map formatLine)

/-! ## Order-theoretic facts about the comparator -/

theorem listCmp_self : ∀ l : List Char, listCmp l l = 0
  | [] => rfl
  | a :: as => by simp [listCmp, lt_irrefl, listCmp_self as]

theorem listCmp_neg : ∀ a b : List Char, listCmp a b = -(listCmp b a)
  | [], [] => rfl
  | [], _ :: _ => rfl
  | _ :: _, [] => rfl
  | a :: as, b :: bs => by
    rcases lt_trichotomy a b with h | h | h
    · simp [listCmp, h, asymm h]
    · subst h; simp [listCmp, lt_irrefl, listCmp_neg as bs]
    · simp [listCmp, h, asymm h]

theorem listCmp_eq_zero_iff : ∀ a b : List Char, listCmp a b = 0 ↔ a = b
  | [], [] => by simp [listCmp]
  | [], _ :: _ => by simp [listCmp]
  | _ :: _, [] => by simp [listCmp]
  | a :: as, b :: bs => by
    rcases lt_trichotomy a b with h | h | h
    · simp only [listCmp, if_pos h]
      simp only [List.cons.injEq]
      constructor
      · intro hc; omega
      · rintro ⟨hab, -⟩; exact absurd hab (ne_of_lt h)
    · subst h; simp [listCmp, lt_irrefl, listCmp_eq_zero_iff as bs]
    · simp only [listCmp, if_neg (asymm h), if_pos h]
      simp only [List.cons.injEq]
      constructor
      · intro hc; omega
      · rintro ⟨hab, -⟩; exact absurd hab.symm (ne_of_lt h)

theorem listCmp_nil_le : ∀ c : List Char, listCmp [] c ≤ 0
  | [] => by simp [listCmp]
  | _ :: _ => by simp [listCmp]

theorem listCmp_trans_le :
    ∀ a b c : List Char, listCmp a b ≤ 0 → listCmp b c ≤ 0 → listCmp a c ≤ 0
  | [], _, c, _, _ => listCmp_nil_le c
  | _ :: _, [], _, h1, _ => by simp [listCmp] at h1
  | _ :: _, _ :: _, [], _, h2 => by simp [listCmp] at h2
  | x :: xs, y :: ys, z :: zs, h1, h2 => by
    rcases lt_trichotomy x y with hxy | hxy | hxy
    · rcases lt_trichotomy y z with hyz | hyz | hyz
      · simp [listCmp, lt_trans hxy hyz]
      · subst hyz; simp [listCmp, hxy]
      · rw [listCmp, if_neg (asymm hyz), if_pos hyz] at h2; omega
    · subst hxy
      rcases lt_trichotomy x z with hyz | hyz | hyz
      · simp [listCmp, hyz]
      · subst hyz
        rw [listCmp, if_neg (lt_irrefl x), if_neg (lt_irrefl x)] at h1 h2 ⊢
        exact listCmp_trans_le xs ys zs h1 h2
      · rw [listCmp, if_neg (asymm hyz), if_pos hyz] at h2; omega
    · rw [listCmp, if_neg (asymm hxy), if_pos hxy] at h1; omega

theorem listCmp_cases : ∀ a b : List Char, listCmp a b = -1 ∨ listCmp a b = 0 ∨ listCmp a b = 1
  | [], [] => by simp [listCmp]
  | [], _ :: _ => by simp [listCmp]
  | _ :: _, [] => by simp [listCmp]
  | a :: as, b :: bs => by
    by_cases h1 : a < b
    · simp [listCmp, h1]
    · by_cases h2 : b < a
      · simp [listCmp, h1, h2]
      · rw [listCmp, if_neg h1, if_neg h2]; exact listCmp_cases as bs

theorem listCmp_trans_lt (a b c : List Char)
    (h1 : listCmp a b ≤ 0) (h2 : listCmp b c ≤ 0)
    (hstrict : listCmp a b < 0 ∨ listCmp b c < 0) : listCmp a c < 0 := by
  have hle := listCmp_trans_le a b c h1 h2
  rcases Decidable.lt_or_eq_of_le hle with h | h
  · exact h
  · exfalso
    have hac : a = c := (listCmp_eq_zero_iff a c).mp h
    subst hac
    have hn := listCmp_neg a b
    rcases hstrict with h | h <;> omega

theorem listCmp_append : ∀ s a b : List Char, listCmp (s ++ a) (s ++ b) = listCmp a b
  | [], _, _ => rfl
  | c :: cs, a, b => by
    simp only [List.cons_append, listCmp, lt_irrefl, if_false, if_neg]
    exact listCmp_append cs a b

theorem listCmp_self_append : ∀ a b : List Char, b ≠ [] → listCmp a (a ++ b) = -1
  | [], [], h => absurd rfl h
  | [], _ :: _, _ => rfl
  | c :: cs, b, h => by
    simp only [List.cons_append, listCmp, lt_irrefl, if_false, if_neg]
    exact listCmp_self_append cs b h

theorem compareThread_neg (a b : ThreadSortableItem) :
    compareThread a b = -(compareThread b a) := by
  unfold compareThread
  cases a.order with
  | none => cases b.order <;> simp
  | some x =>
    cases b.order with
    | none => simp
    | some y => exact listCmp_neg x.data y.data

/-! ## The stable sort -/

theorem insertCmp_perm (cmp : α → α → Int) (x : α) :
    ∀ l : List α, List.Perm (insertCmp cmp x l) (x :: l)
  | [] => List.Perm.refl _
  | y :: ys => by
    unfold insertCmp
    by_cases h : cmp x y > 0
    · rw [if_pos h]
      exact ((insertCmp_perm cmp x ys).cons y).trans (List.Perm.swap x y ys)
    · rw [if_neg h]

theorem sortCmp_perm (cmp : α → α → Int) :
    ∀ l : List α, List.Perm (sortCmp cmp l) l
  | [] => List.Perm.refl _
  | x :: xs => (insertCmp_perm cmp x (sortCmp cmp xs)).trans ((sortCmp_perm cmp xs).cons x)

theorem insertCmp_head (cmp : α → α → Int) (x : α) (l : List α) :
    (insertCmp cmp x l).head? = some x ∨ (insertCmp cmp x l).head? = l.head? := by
  cases l with
  | nil => left; rfl
  | cons y ys =>
    unfold insertCmp
    by_cases h : cmp x y > 0
    · rw [if_pos h]; right; rfl
    · rw [if_neg h]; left; rfl

theorem insertCmp_sorted (cmp : α → α → Int)
    (hanti : ∀ a b, cmp a b = -(cmp b a)) (x : α) :
    ∀ l : List α, l.Chain' (fun a b => cmp a b ≤ 0) →
      (insertCmp cmp x l).Chain' (fun a b => cmp a b ≤ 0)
  | [], _ => List.chain'_singleton x
  | y :: ys, hl => by
    unfold insertCmp
    by_cases h : cmp x y > 0
    · rw [if_pos h]
      rw [List.chain'_cons']
      refine ⟨?_, insertCmp_sorted cmp hanti x ys hl.tail⟩
      intro b hb
      rcases insertCmp_head cmp x ys with hh | hh
      · rw [hh] at hb
        injection hb with hxb
        subst hxb
        have := hanti y x
        omega
      · rw [hh] at hb
        cases ys with
        | nil => simp at hb
        | cons z zs =>
          simp only [List.head?_cons, Option.mem_def, Option.some.injEq] at hb
          subst hb
          exact (List.chain'_cons.mp hl).1
    · rw [if_neg h]
      exact List.chain'_cons.mpr ⟨by omega, hl⟩

theorem sortCmp_sorted (cmp : α → α → Int)
    (hanti : ∀ a b, cmp a b = -(cmp b a)) :
    ∀ l : List α, (sortCmp cmp l).Chain' (fun a b => cmp a b ≤ 0)
  | [] => List.chain'_nil
  | x :: xs => insertCmp_sorted cmp hanti x _ (sortCmp_sorted cmp hanti xs)

theorem sortCmp_eq_self (cmp : α → α → Int) :
    ∀ l : List α, l.Chain' (fun a b => cmp a b ≤ 0) → sortCmp cmp l = l
  | [], _ => rfl
  | x :: xs, hl => by
    unfold sortCmp
    rw [sortCmp_eq_self cmp xs hl.tail]
    cases xs with
    | nil => rfl
    | cons y ys =>
      unfold insertCmp
      rw [if_neg (by have := (List.chain'_cons.mp hl).1; omega)]

theorem chain'_le_getLast (cmp : α → α → Int) :
    ∀ (l : List α) (hne : l ≠ []),
      (∀ a b c, a ∈ l → b ∈ l → c ∈ l → cmp a b ≤ 0 → cmp b c ≤ 0 → cmp a c ≤ 0) →
      (∀ a ∈ l, cmp a a ≤ 0) →
      l.Chain' (fun a b => cmp a b ≤ 0) →
      ∀ x ∈ l, cmp x (l.getLast hne) ≤ 0
  | [], hne, _, _, _ => absurd rfl hne
  | [a], _, _, hrefl, _ => by
    intro x hx
    simp only [List.mem_singleton] at hx
    subst hx
    simpa using hrefl x (by simp)
  | a :: b :: t, _, htr, hrefl, hl => by
    intro x hx
    have hlast : (a :: b :: t).getLast (by simp) = (b :: t).getLast (by simp) :=
      List.getLast_cons (by simp)
    rw [hlast]
    have ih := chain'_le_getLast cmp (b :: t) (by simp)
      (fun p q r hp hq hr => htr p q r (List.mem_cons_of_mem a hp)
        (List.mem_cons_of_mem a hq) (List.mem_cons_of_mem a hr))
      (fun p hp => hrefl p (List.mem_cons_of_mem a hp))
      hl.tail
    rcases List.mem_cons.mp hx with hx | hx
    · subst hx
      have h1 : cmp x b ≤ 0 := (List.chain'_cons.mp hl).1
      have h2 : cmp b ((b :: t).getLast (by simp)) ≤ 0 := ih b (by simp)
      exact htr x b ((b :: t).getLast (by simp)) (by simp) (by simp)
        (by simp [List.getLast_mem]) h1 h2
    · exact ih x hx

theorem compareThread_self (a : ThreadSortableItem) : compareThread a a = 0 := by
  unfold compareThread
  cases a.order with
  | none => rfl
  | some x => exact listCmp_self x.data

theorem compareThread_some (a b : ThreadSortableItem) (x y : String)
    (ha : a.order = some x) (hb : b.order = some y) :
    compareThread a b = listCmp x.data y.data := by
  unfold compareThread
  rw [ha, hb]
  rfl

/-! ## `pop()` of the stable sort extracts the maximal order string -/

theorem sortPop_eq_none (l : List ThreadSortableItem)
    (hdef : ∀ it ∈ l, ∃ s, it.order = some s) :
    ((sortCmp compareThread l).getLast?.bind (fun t => t.order)) = none ↔ l = [] := by
  constructor
  · intro h
    by_contra hne
    have hperm := sortCmp_perm compareThread l
    have hsne : sortCmp compareThread l ≠ [] := by
      intro hh
      have hlen := hperm.length_eq
      rw [hh] at hlen
      have hl0 : l.length = 0 := by simpa using hlen.symm
      exact hne (List.length_eq_zero.mp hl0)
    rw [List.getLast?_eq_getLast _ hsne] at h
    obtain ⟨s, hs⟩ := hdef _ (hperm.mem_iff.mp (List.getLast_mem hsne))
    have h2 : ((sortCmp compareThread l).getLast hsne).order = none := h
    rw [hs] at h2
    exact Option.noConfusion h2
  · intro h
    subst h
    rfl

theorem sortPop_le_max (l : List ThreadSortableItem) (M : String)
    (hdef : ∀ it ∈ l, ∃ s, it.order = some s)
    (h : ((sortCmp compareThread l).getLast?.bind (fun t => t.order)) = some M) :
    (∃ it ∈ l, it.order = some M) ∧
      ∀ it ∈ l, ∀ s, it.order = some s → listCmp s.data M.data ≤ 0 := by
  have hperm := sortCmp_perm compareThread l
  rcases hg : (sortCmp compareThread l).getLast? with - | g
  · rw [hg] at h; simp at h
  · rw [hg] at h
    simp only [Option.some_bind] at h
    have hsne : sortCmp compareThread l ≠ [] := by
      intro hh; rw [hh] at hg; simp at hg
    have hgmem : g ∈ l := by
      rw [List.getLast?_eq_getLast _ hsne] at hg
      injection hg with hgg
      exact hperm.mem_iff.mp (hgg ▸ List.getLast_mem hsne)
    constructor
    · exact ⟨g, hgmem, h⟩
    · intro it hit s hs
      have hsorted := sortCmp_sorted compareThread compareThread_neg l
      have htr : ∀ a b c, a ∈ sortCmp compareThread l → b ∈ sortCmp compareThread l →
          c ∈ sortCmp compareThread l → compareThread a b ≤ 0 → compareThread b c ≤ 0 →
          compareThread a c ≤ 0 := by
        intro a b c hal hbl hcl h1 h2
        obtain ⟨x, hx⟩ := hdef a (hperm.mem_iff.mp hal)
        obtain ⟨y, hy⟩ := hdef b (hperm.mem_iff.mp hbl)
        obtain ⟨z, hz⟩ := hdef c (hperm.mem_iff.mp hcl)
        rw [compareThread_some a b x y hx hy] at h1
        rw [compareThread_some b c y z hy hz] at h2
        rw [compareThread_some a c x z hx hz]
        exact listCmp_trans_le _ _ _ h1 h2
      have hmax := chain'_le_getLast compareThread (sortCmp compareThread l) hsne htr
        (fun a _ => le_of_eq (compareThread_self a)) hsorted it (hperm.mem_iff.mpr hit)
      rw [List.getLast?_eq_getLast _ hsne] at hg
      injection hg with hgg
      rw [hgg] at hmax
      rw [compareThread_some it g s M hs h] at hmax
      exact hmax

theorem sortPop_eq_some_of_max (l : List ThreadSortableItem) (M : String)
    (hdef : ∀ it ∈ l, ∃ s, it.order = some s)
    (hmem : ∃ it ∈ l, it.order = some M)
    (hmax : ∀ it ∈ l, ∀ s, it.order = some s → listCmp s.data M.data ≤ 0) :
    ((sortCmp compareThread l).getLast?.bind (fun t => t.order)) = some M := by
  obtain ⟨w, hwmem, hworder⟩ := hmem
  rcases hg : ((sortCmp compareThread l).getLast?.bind (fun t => t.order)) with - | N
  · rw [sortPop_eq_none l hdef] at hg
    subst hg
    simp at hwmem
  · obtain ⟨⟨g, hgmem, hgord⟩, hNmax⟩ := sortPop_le_max l N hdef hg
    have h1 : listCmp N.data M.data ≤ 0 := hmax g hgmem N hgord
    have h2 : listCmp M.data N.data ≤ 0 := hNmax w hwmem M hworder
    have h3 := listCmp_neg N.data M.data
    have h4 : listCmp N.data M.data = 0 := by omega
    have h5 : N.data = M.data := (listCmp_eq_zero_iff _ _).mp h4
    have h6 : N = M := by
      cases N; cases M; exact congrArg String.mk h5
    rw [h6]

/-! ## Characterizing the two maximum scans -/

theorem truthyStr_some_iff (s : String) : truthyStr (some s) = true ↔ s ≠ "" := by
  simp [truthyStr]

theorem mem_truthy_filter (items : List ThreadSortableItem) :
    ∀ it ∈ items.filter (fun t => truthyStr t.order), ∃ s, it.order = some s ∧ s ≠ "" := by
  intro it hit
  have hp := List.of_mem_filter hit
  cases ho : it.order with
  | none => rw [ho] at hp; simp [truthyStr] at hp
  | some s =>
    rw [ho] at hp
    exact ⟨s, rfl, (truthyStr_some_iff s).mp hp⟩

theorem getMaxThread_none_iff (items : List ThreadSortableItem) :
    getMaxThread items = none ↔ items.filter (fun t => truthyStr t.order) = [] := by
  unfold getMaxThread
  exact sortPop_eq_none _ (fun it hit => by
    obtain ⟨s, hs, -⟩ := mem_truthy_filter items it hit
    exact ⟨s, hs⟩)

theorem getMaxThread_some_spec (items : List ThreadSortableItem) (M : String)
    (h : getMaxThread items = some M) :
    (∃ it ∈ items, it.order = some M ∧ M ≠ "") ∧
      ∀ it ∈ items, ∀ s, it.order = some s → s ≠ "" → listCmp s.data M.data ≤ 0 := by
  unfold getMaxThread at h
  have hdef : ∀ it ∈ items.filter (fun t => truthyStr t.order), ∃ s, it.order = some s :=
    fun it hit => by
      obtain ⟨s, hs, -⟩ := mem_truthy_filter items it hit
      exact ⟨s, hs⟩
  obtain ⟨⟨g, hgmem, hgord⟩, hmax⟩ := sortPop_le_max _ M hdef h
  constructor
  · refine ⟨g, List.mem_of_mem_filter hgmem, hgord, ?_⟩
    obtain ⟨s, hs, hne⟩ := mem_truthy_filter items g hgmem
    rw [hgord] at hs
    injection hs with hss
    exact hss ▸ hne
  · intro it hit s hs hsne
    refine hmax it ?_ s hs
    refine List.mem_filter.mpr ⟨hit, ?_⟩
    rw [hs]
    exact (truthyStr_some_iff s).mpr hsne

theorem getMaxThread_eq_some (items : List ThreadSortableItem) (M : String)
    (hmem : ∃ it ∈ items, it.order = some M ∧ M ≠ "")
    (hmax : ∀ it ∈ items, ∀ s, it.order = some s → s ≠ "" → listCmp s.data M.data ≤ 0) :
    getMaxThread items = some M := by
  unfold getMaxThread
  refine sortPop_eq_some_of_max _ M (fun it hit => by
      obtain ⟨s, hs, -⟩ := mem_truthy_filter items it hit
      exact ⟨s, hs⟩) ?_ ?_
  · obtain ⟨it, hit, hord, hne⟩ := hmem
    refine ⟨it, List.mem_filter.mpr ⟨hit, ?_⟩, hord⟩
    rw [hord]
    exact (truthyStr_some_iff M).mpr hne
  · intro it hit s hs
    obtain ⟨s', hs', hne'⟩ := mem_truthy_filter items it hit
    rw [hs] at hs'
    injection hs' with hss
    subst hss
    exact hmax it (List.mem_of_mem_filter hit) s hs hne'

theorem mem_perThread_filter (items : List ThreadSortableItem) (pid : String) :
    ∀ it ∈ items.filter (fun i => i.parent == some pid && truthyStr i.order),
      it.parent = some pid ∧ ∃ s, it.order = some s ∧ s ≠ "" := by
  intro it hit
  have hp := List.of_mem_filter hit
  have h1 : it.parent = some pid := by
    have := (Bool.and_eq_true _ _).mp hp |>.1
    exact eq_of_beq this
  have h2 := (Bool.and_eq_true _ _).mp hp |>.2
  refine ⟨h1, ?_⟩
  cases ho : it.order with
  | none => rw [ho] at h2; simp [truthyStr] at h2
  | some s =>
    rw [ho] at h2
    exact ⟨s, rfl, (truthyStr_some_iff s).mp h2⟩

theorem getMaxThreadPerThread_none_iff (items : List ThreadSortableItem) (pid : String) :
    getMaxThreadPerThread items pid = none ↔
      items.filter (fun i => i.parent == some pid && truthyStr i.order) = [] := by
  unfold getMaxThreadPerThread
  exact sortPop_eq_none _ (fun it hit => by
    obtain ⟨-, s, hs, -⟩ := mem_perThread_filter items pid it hit
    exact ⟨s, hs⟩)

theorem getMaxThreadPerThread_some_spec (items : List ThreadSortableItem) (pid M : String)
    (h : getMaxThreadPerThread items pid = some M) :
    (∃ it ∈ items, it.parent = some pid ∧ it.order = some M ∧ M ≠ "") ∧
      ∀ it ∈ items, it.parent = some pid → ∀ s, it.order = some s → s ≠ "" →
        listCmp s.data M.data ≤ 0 := by
  unfold getMaxThreadPerThread at h
  have hdef : ∀ it ∈ items.filter (fun i => i.parent == some pid && truthyStr i.order),
      ∃ s, it.order = some s := fun it hit => by
    obtain ⟨-, s, hs, -⟩ := mem_perThread_filter items pid it hit
    exact ⟨s, hs⟩
  obtain ⟨⟨g, hgmem, hgord⟩, hmax⟩ := sortPop_le_max _ M hdef h
  constructor
  · obtain ⟨hpar, s, hs, hne⟩ := mem_perThread_filter items pid g hgmem
    rw [hgord] at hs
    injection hs with hss
    exact ⟨g, List.mem_of_mem_filter hgmem, hpar, hgord, hss ▸ hne⟩
  · intro it hit hpar s hs hsne
    refine hmax it ?_ s hs
    refine List.mem_filter.mpr ⟨hit, ?_⟩
    rw [hpar, hs]
    simp [truthyStr, hsne]

theorem getMaxThreadPerThread_eq_some (items : List ThreadSortableItem) (pid M : String)
    (hmem : ∃ it ∈ items, it.parent = some pid ∧ it.order = some M ∧ M ≠ "")
    (hmax : ∀ it ∈ items, it.parent = some pid → ∀ s, it.order = some s → s ≠ "" →
      listCmp s.data M.data ≤ 0) :
    getMaxThreadPerThread items pid = some M := by
  unfold getMaxThreadPerThread
  refine sortPop_eq_some_of_max _ M (fun it hit => by
      obtain ⟨-, s, hs, -⟩ := mem_perThread_filter items pid it hit
      exact ⟨s, hs⟩) ?_ ?_
  · obtain ⟨it, hit, hpar, hord, hne⟩ := hmem
    refine ⟨it, List.mem_filter.mpr ⟨hit, ?_⟩, hord⟩
    rw [hpar, hord]
    simp [truthyStr, hne]
  · intro it hit s hs
    obtain ⟨hpar, s', hs', hne'⟩ := mem_perThread_filter items pid it hit
    rw [hs] at hs'
    injection hs' with hss
    subst hss
    exact hmax it (List.mem_of_mem_filter hit) hpar s hs hne'

/-! ## State evolution: `populateThreadForItem` only ever writes a missing key -/

/-- `st'` is reachable from `st` by key assignments: same length, and every
position either keeps its item or had no key and gained one (ids and parents
are never touched). -/
@[reducible] def Evolves (st st' : List ThreadSortableItem) : Prop :=
  st'.length = st.length ∧
  ∀ (k : Nat) (it : ThreadSortableItem), st[k]? = some it →
    st'[k]? = some it ∨ (it.order = none ∧ ∃ w, st'[k]? = some { it with order := some w })

theorem evolves_refl (st : List ThreadSortableItem) : Evolves st st :=
  ⟨rfl, fun _ _ h => Or.inl h⟩

theorem evolves_rev {st st' : List ThreadSortableItem} (e : Evolves st st')
    (k : Nat) (it' : ThreadSortableItem) (h : st'[k]? = some it') :
    ∃ it, st[k]? = some it ∧ it'.id = it.id ∧ it'.parent = it.parent ∧
      (it'.order = it.order ∨ (it.order = none ∧ ∃ w, it'.order = some w)) := by
  have hk : k < st'.length := (List.getElem?_eq_some.mp h).1
  have hk2 : k < st.length := e.1 ▸ hk
  obtain ⟨it, hit⟩ : ∃ a, st[k]? = some a := ⟨st[k], List.getElem?_eq_getElem hk2⟩
  rcases e.2 k it hit with h2 | ⟨hord, w, h2⟩
  · rw [h] at h2
    injection h2 with hh
    exact ⟨it, hit, by rw [hh], by rw [hh], Or.inl (by rw [hh])⟩
  · rw [h] at h2
    injection h2 with hh
    exact ⟨it, hit, by rw [hh], by rw [hh], Or.inr ⟨hord, w, by rw [hh]⟩⟩

theorem evolves_trans {s1 s2 s3 : List ThreadSortableItem}
    (e1 : Evolves s1 s2) (e2 : Evolves s2 s3) : Evolves s1 s3 := by
  refine ⟨e2.1.trans e1.1, ?_⟩
  intro k it h
  rcases e1.2 k it h with h2 | ⟨hord, w, h2⟩
  · exact e2.2 k it h2
  · rcases e2.2 k _ h2 with h3 | ⟨hord3, -, h3⟩
    · exact Or.inr ⟨hord, w, h3⟩
    · simp at hord3

theorem evolves_map_id {st st' : List ThreadSortableItem} (e : Evolves st st') :
    st'.map (fun t => t.id) = st.map (fun t => t.id) := by
  apply List.ext_getElem?
  intro k
  rw [List.getElem?_map, List.getElem?_map]
  rcases h : st'[k]? with - | it'
  · have hk : st'.length ≤ k := by
      by_contra hk
      push_neg at hk
      rw [List.getElem?_eq_getElem hk] at h
      exact Option.noConfusion h
    rw [List.getElem?_eq_none (e.1 ▸ hk)]
  · obtain ⟨it, hit, hid, -, -⟩ := evolves_rev e k it' h
    rw [hit]
    simpa using hid

theorem evolves_map_parent {st st' : List ThreadSortableItem} (e : Evolves st st') :
    st'.map (fun t => t.parent) = st.map (fun t => t.parent) := by
  apply List.ext_getElem?
  intro k
  rw [List.getElem?_map, List.getElem?_map]
  rcases h : st'[k]? with - | it'
  · have hk : st'.length ≤ k := by
      by_contra hk
      push_neg at hk
      rw [List.getElem?_eq_getElem hk] at h
      exact Option.noConfusion h
    rw [List.getElem?_eq_none (e.1 ▸ hk)]
  · obtain ⟨it, hit, -, hpar, -⟩ := evolves_rev e k it' h
    rw [hit]
    simpa using hpar

theorem evolves_order_persist {st st' : List ThreadSortableItem} (e : Evolves st st')
    (k : Nat) (s : String) (h : (st[k]?).bind (fun t => t.order) = some s) :
    (st'[k]?).bind (fun t => t.order) = some s := by
  rcases hit : st[k]? with - | it
  · rw [hit] at h; exact Option.noConfusion h
  · rw [hit] at h
    simp only [Option.some_bind] at h
    rcases e.2 k it hit with h2 | ⟨hord, -, -⟩
    · rw [h2]
      simpa using h
    · rw [hord] at h; exact Option.noConfusion h

theorem evolves_set {st : List ThreadSortableItem} {k : Nat} {c : ThreadSortableItem}
    (h : st[k]? = some c) (hord : c.order = none) (w : String) :
    Evolves st (st.set k { c with order := some w }) := by
  refine ⟨List.length_set .., ?_⟩
  intro j it hj
  by_cases hjk : j = k
  · subst hjk
    rw [h] at hj
    injection hj with hh
    subst hh
    right
    refine ⟨hord, w, ?_⟩
    have hk : j < st.length := (List.getElem?_eq_some.mp h).1
    simp [List.getElem?_set_self', hk]
  · left
    rw [List.getElem?_set_ne (fun hh => hjk hh.symm)]
    exact hj

theorem evolves_set_after {st st' : List ThreadSortableItem} {k : Nat}
    {c c2 : ThreadSortableItem} (e : Evolves st st')
    (h : st[k]? = some c) (hord : c.order = none) (h2 : st'[k]? = some c2) (w : String) :
    Evolves st (st'.set k { c2 with order := some w }) := by
  refine ⟨(List.length_set ..).trans e.1, ?_⟩
  intro j it hj
  by_cases hjk : j = k
  · subst hjk
    rw [h] at hj
    injection hj with hh
    subst hh
    right
    refine ⟨hord, w, ?_⟩
    have hk : j < st'.length := (List.getElem?_eq_some.mp h2).1
    have hset : (st'.set j { c2 with order := some w })[j]? = some { c2 with order := some w } := by
      simp [List.getElem?_set_self', hk]
    rw [hset]
    rcases e.2 j c h with h3 | ⟨-, w0, h3⟩
    · rw [h2] at h3
      injection h3 with hh
      rw [← hh]
    · rw [h2] at h3
      injection h3 with hh
      rw [hh]
  · rw [List.getElem?_set_ne (fun hh => hjk hh.symm)]
    exact e.2 j it hj

theorem populate_evolves (opt : ThreadSortOptions) :
    ∀ (fuel : Nat) (st : List ThreadSortableItem) (i : Nat) (st' : List ThreadSortableItem),
      populateThreadForItem opt fuel st i = .ok st' → Evolves st st'
  | 0, st, i, st', h => by simp [populateThreadForItem] at h
  | fuel + 1, st, i, st', h => by
    unfold populateThreadForItem at h
    split at h
    · injection h with hh
      subst hh
      exact evolves_refl st
    · rename_i c hc
      split at h
      · injection h with hh
        subst hh
        exact evolves_refl st
      · rename_i hco
        split at h
        · rename_i hp
          injection h with hh
          subst hh
          exact evolves_set hc hco _
        · rename_i pid hp
          split at h
          · injection h with hh
            subst hh
            exact evolves_set hc hco _
          · split at h
            · exact Except.noConfusion h
            · rename_i pj hpj
              split at h
              · exact Except.noConfusion h
              · rename_i st1 hrec
                injection h with hh
                subst hh
                have e1 := populate_evolves opt fuel st pj st1 hrec
                unfold childAssign
                split
                · exact e1
                · rename_i c2 hc2
                  exact evolves_set_after e1 hc hco hc2 _

theorem populate_ok_keyed (opt : ThreadSortOptions) (fuel : Nat)
    (st : List ThreadSortableItem) (i : Nat) (st' : List ThreadSortableItem)
    (h : populateThreadForItem opt fuel st i = .ok st') (hlt : i < st.length) :
    ∃ w, (st'[i]?).bind (fun t => t.order) = some w := by
  cases fuel with
  | zero => simp [populateThreadForItem] at h
  | succ fuel =>
    unfold populateThreadForItem at h
    split at h
    · rename_i hc
      rw [List.getElem?_eq_getElem hlt] at hc
      exact Option.noConfusion hc
    · rename_i c hc
      split at h
      · rename_i w hco
        injection h with hh
        subst hh
        rw [hc]
        exact ⟨w, by simp [hco]⟩
      · rename_i hco
        have hroot : ∀ st'', st'' = rootAssign opt st i c →
            ∃ w, (st''[i]?).bind (fun t => t.order) = some w := by
          intro st'' hst
          subst hst
          unfold rootAssign
          refine ⟨rootKeyStr opt st, ?_⟩
          simp [List.getElem?_set_self', hlt]
        split at h
        · injection h with hh
          exact hroot st' hh.symm
        · rename_i pid hp
          split at h
          · injection h with hh
            exact hroot st' hh.symm
          · split at h
            · exact Except.noConfusion h
            · rename_i pj hpj
              split at h
              · exact Except.noConfusion h
              · rename_i st1 hrec
                injection h with hh
                subst hh
                have e1 := populate_evolves opt fuel st pj st1 hrec
                have hlt1 : i < st1.length := by rw [e1.1]; exact hlt
                unfold childAssign
                split
                · rename_i hc2
                  rw [List.getElem?_eq_getElem hlt1] at hc2
                  exact Option.noConfusion hc2
                · rename_i c2 hc2
                  refine ⟨childKeyStr opt st1 pid pj, ?_⟩
                  simp [List.getElem?_set_self', hlt1]

theorem populate_keyed_noop (opt : ThreadSortOptions) (fuel : Nat)
    (st : List ThreadSortableItem) (i : Nat)
    (h : ∀ k, k < st.length → (st[k]?).bind (fun t => t.order) ≠ none) :
    populateThreadForItem opt (fuel + 1) st i = .ok st := by
  unfold populateThreadForItem
  split
  · rfl
  · rename_i c hc
    split
    · rfl
    · rename_i hco
      exfalso
      have hlt : i < st.length := (List.getElem?_eq_some.mp hc).1
      have hk := h i hlt
      rw [hc] at hk
      simp [hco] at hk

theorem populateLoop_evolves (opt : ThreadSortOptions) (fuel : Nat) :
    ∀ (is : List Nat) (st st' : List ThreadSortableItem),
      populateLoop opt fuel is st = .ok st' → Evolves st st'
  | [], st, st', h => by
    injection h with hh
    subst hh
    exact evolves_refl st
  | i :: is, st, st', h => by
    unfold populateLoop at h
    split at h
    · exact Except.noConfusion h
    · rename_i st1 h1
      exact evolves_trans (populate_evolves opt fuel st i st1 h1)
        (populateLoop_evolves opt fuel is st1 st' h)

theorem populateLoop_keyed (opt : ThreadSortOptions) (fuel : Nat) :
    ∀ (is : List Nat) (st st' : List ThreadSortableItem),
      populateLoop opt fuel is st = .ok st' →
      ∀ i ∈ is, i < st.length → ∃ w, (st'[i]?).bind (fun t => t.order) = some w
  | [], _, _, _, i, hi, _ => absurd hi (List.not_mem_nil i)
  | j :: is, st, st', h, i, hi, hlt => by
    unfold populateLoop at h
    split at h
    · exact Except.noConfusion h
    · rename_i st1 h1
      rcases List.mem_cons.mp hi with hij | hi2
      · subst hij
        obtain ⟨w, hw⟩ := populate_ok_keyed opt fuel st i st1 h1 hlt
        exact ⟨w, evolves_order_persist (populateLoop_evolves opt fuel is st1 st' h) i w hw⟩
      · have hlt1 : i < st1.length := by
          rw [(populate_evolves opt fuel st j st1 h1).1]
          exact hlt
        exact populateLoop_keyed opt fuel is st1 st' h i hi2 hlt1

theorem populateLoop_noop (opt : ThreadSortOptions) (fuel : Nat) :
    ∀ (is : List Nat) (st : List ThreadSortableItem),
      (∀ k, k < st.length → (st[k]?).bind (fun t => t.order) ≠ none) →
      populateLoop opt (fuel + 1) is st = .ok st
  | [], _, _ => rfl
  | i :: is, st, h => by
    unfold populateLoop
    rw [populate_keyed_noop opt fuel st i h]
    exact populateLoop_noop opt fuel is st h

/-! ## Basic facts about a successful `sortThread` call -/

theorem sortThread_ok_spec (items out : List ThreadSortableItem) (opt : ThreadSortOptions)
    (h : sortThread items opt = .ok out) :
    ∃ st, populateLoop opt (items.length + 1) (List.range items.length) items = .ok st ∧
      out = sortCmp compareThread st ∧ Evolves items st ∧ List.Perm out st := by
  unfold sortThread at h
  split at h
  · exact Except.noConfusion h
  · rename_i st hst
    injection h with hh
    exact ⟨st, hst, hh.symm, populateLoop_evolves opt _ _ items st hst,
      hh ▸ sortCmp_perm compareThread st⟩

theorem sortThread_ok_all_keyed (items out : List ThreadSortableItem) (opt : ThreadSortOptions)
    (h : sortThread items opt = .ok out) :
    ∀ it ∈ out, ∃ w, it.order = some w := by
  obtain ⟨st, hst, -, e, hperm⟩ := sortThread_ok_spec items out opt h
  intro it hit
  have hmem : it ∈ st := hperm.mem_iff.mp hit
  obtain ⟨k, hk⟩ := List.getElem?_of_mem hmem
  have hklt : k < st.length := (List.getElem?_eq_some.mp hk).1
  have hklt2 : k < items.length := by rw [← e.1]; exact hklt
  obtain ⟨w, hw⟩ := populateLoop_keyed opt _ _ items st hst k
    (List.mem_range.mpr hklt2) hklt2
  rw [hk] at hw
  simp only [Option.some_bind] at hw
  exact ⟨w, hw⟩

theorem find?_none_iff_findIdx?_none (p : α → Bool) (l : List α) :
    l.find? p = none ↔ l.findIdx? p = none := by
  simp [List.find?_eq_none, List.findIdx?_eq_none_iff]

theorem populate_no_parentNotFound (opt : ThreadSortOptions) :
    ∀ (fuel : Nat) (st : List ThreadSortableItem) (i : Nat),
      populateThreadForItem opt fuel st i ≠ .error .parentNotFound
  | 0, st, i => by simp [populateThreadForItem]
  | fuel + 1, st, i => by
    intro h
    unfold populateThreadForItem at h
    split at h
    · exact Except.noConfusion h
    · split at h
      · exact Except.noConfusion h
      · split at h
        · exact Except.noConfusion h
        · rename_i pid hp
          split at h
          · exact Except.noConfusion h
          · rename_i hfind
            split at h
            · rename_i hidx
              exact hfind ((find?_none_iff_findIdx?_none _ st).mpr hidx)
            · split at h
              · rename_i e hrec
                injection h with hh
                subst hh
                exact populate_no_parentNotFound opt fuel st _ hrec
              · exact Except.noConfusion h

theorem populateLoop_no_parentNotFound (opt : ThreadSortOptions) (fuel : Nat) :
    ∀ (is : List Nat) (st : List ThreadSortableItem),
      populateLoop opt fuel is st ≠ .error .parentNotFound
  | [], st => by simp [populateLoop]
  | i :: is, st => by
    intro h
    unfold populateLoop at h
    split at h
    · rename_i e hrec
      injection h with hh
      subst hh
      exact populate_no_parentNotFound opt fuel st i hrec
    · exact populateLoop_no_parentNotFound opt fuel is _ h

/-- C8: the `'Comment parent not found'` branch is unreachable.  Whenever the
child case performs its parent lookup, the same lookup already succeeded in
the root-ness test on the unchanged collection, so neither
`populateThreadForItem` nor `sortThread` can ever surface the
`parentNotFound` error, for any options, fuel, state and position. -/
theorem parent_not_found_unreachable :
    (∀ (opt : ThreadSortOptions) (fuel : Nat) (st : List ThreadSortableItem) (i : Nat),
      populateThreadForItem opt fuel st i ≠ .error .parentNotFound) ∧
    (∀ (items : List ThreadSortableItem) (opt : ThreadSortOptions),
      sortThread items opt ≠ .error .parentNotFound) := by
  refine ⟨populate_no_parentNotFound, ?_⟩
  intro items opt h
  unfold sortThread at h
  split at h
  · rename_i e hrec
    injection h with hh
    subst hh
    exact populateLoop_no_parentNotFound opt _ _ items hrec
  · exact Except.noConfusion h

/-- C2: `sortThread` is idempotent.  If a call returns `out`, a second call
on `out` performs no key assignment at all (the whole populate pass leaves
`out` untouched) and returns `out` in the same order. -/
theorem sortThread_idempotent (items out : List ThreadSortableItem) (opt : ThreadSortOptions)
    (h : sortThread items opt = .ok out) :
    populateLoop opt (out.length + 1) (List.range out.length) out = .ok out ∧
      sortThread out opt = .ok out := by
  obtain ⟨st, hst, hout, e, hperm⟩ := sortThread_ok_spec items out opt h
  have hkeyed : ∀ k, k < out.length → (out[k]?).bind (fun t => t.order) ≠ none := by
    intro k hk
    obtain ⟨it, hit⟩ : ∃ a, out[k]? = some a := ⟨out[k], List.getElem?_eq_getElem hk⟩
    obtain ⟨w, hw⟩ := sortThread_ok_all_keyed items out opt h it (List.getElem?_mem hit)
    rw [hit]
    simp [hw]
  have hloop : populateLoop opt (out.length + 1) (List.range out.length) out = .ok out :=
    populateLoop_noop opt out.length (List.range out.length) out hkeyed
  refine ⟨hloop, ?_⟩
  unfold sortThread
  rw [hloop]
  have hsorted : out.Chain' (fun a b => compareThread a b ≤ 0) := by
    rw [hout]
    exact sortCmp_sorted compareThread compareThread_neg st
  show Except.ok (sortCmp compareThread out) = Except.ok out
  rw [sortCmp_eq_self compareThread out hsorted]

/-! ## String toolkit: facts about split, join, strip and the digit alphabet -/

/-- Character-level join with a single-character separator. -/
def joinChars (c : Char) : List (List Char) → List Char
  | [] => []
  | [p] => p
  | p :: ps => p ++ c :: joinChars c ps

theorem joinSep_data (sep : String) (c : Char) (hc : sep.data = [c]) :
    ∀ ss : List String, (joinSep sep ss).data = joinChars c (ss.map (fun s => s.data))
  | [] => rfl
  | [s] => rfl
  | s :: s2 :: ss => by
    show (s ++ sep ++ joinSep sep (s2 :: ss)).data = _
    rw [String.data_append, String.data_append, hc, joinSep_data sep c hc (s2 :: ss)]
    simp [joinChars]

theorem findSub_single_none (c : Char) :
    ∀ l : List Char, (∀ x ∈ l, x ≠ c) → findSub [c] l = none
  | [], _ => rfl
  | x :: xs, h => by
    unfold findSub
    rw [if_neg, findSub_single_none c xs (fun y hy => h y (List.mem_cons_of_mem x hy))]
    · rfl
    · have hx : x ≠ c := h x (List.mem_cons_self x xs)
      simp only [isPreOf, Bool.and_eq_true, beq_iff_eq, not_and]
      intro hh
      exact absurd hh.symm hx

theorem findSub_single_at (c : Char) :
    ∀ (p r : List Char), (∀ x ∈ p, x ≠ c) → findSub [c] (p ++ c :: r) = some p.length
  | [], r, _ => by simp [findSub, isPreOf]
  | x :: p, r, h => by
    show findSub [c] (x :: (p ++ c :: r)) = some (p.length + 1)
    unfold findSub
    rw [if_neg, findSub_single_at c p r (fun y hy => h y (List.mem_cons_of_mem x hy))]
    · rfl
    · have hx : x ≠ c := h x (List.mem_cons_self x p)
      simp only [isPreOf, Bool.and_eq_true, beq_iff_eq, not_and]
      intro hh
      exact absurd hh.symm hx

theorem splitGo_nosep (c : Char) (fuel : Nat) (l : List Char) (h : ∀ x ∈ l, x ≠ c) :
    splitGo [c] fuel l = [l] := by
  cases fuel with
  | zero => rfl
  | succ f =>
    unfold splitGo
    rw [findSub_single_none c l h]

theorem joinChars_parts_le (c : Char) :
    ∀ parts : List (List Char), parts.length ≤ (joinChars c parts).length + 1
  | [] => by simp
  | [p] => by simp [joinChars]
  | p :: q :: ps => by
    have ih := joinChars_parts_le c (q :: ps)
    show (q :: ps).length + 1 ≤ (p ++ c :: joinChars c (q :: ps)).length + 1
    simp only [List.length_append, List.length_cons] at ih ⊢
    omega

theorem splitGo_joinChars (c : Char) :
    ∀ (parts : List (List Char)) (fuel : Nat), parts ≠ [] →
      (∀ p ∈ parts, ∀ x ∈ p, x ≠ c) → parts.length ≤ fuel + 1 →
      splitGo [c] fuel (joinChars c parts) = parts
  | [], _, h, _, _ => absurd rfl h
  | [p], fuel, _, hp, _ =>
    splitGo_nosep c fuel p (hp p (List.mem_singleton_self p))
  | p :: q :: ps, fuel, _, hp, hlen => by
    cases fuel with
    | zero => simp at hlen
    | succ f =>
      show splitGo [c] (f + 1) (p ++ c :: joinChars c (q :: ps)) = p :: q :: ps
      unfold splitGo
      rw [findSub_single_at c p _ (hp p (List.mem_cons_self p _))]
      have htake : (p ++ c :: joinChars c (q :: ps)).take p.length = p := List.take_left ..
      have hdrop : (p ++ c :: joinChars c (q :: ps)).drop (p.length + 1) =
          joinChars c (q :: ps) := by
        have := @List.drop_append _ p (c :: joinChars c (q :: ps)) 1
        simpa using this
      simp only [List.length_singleton, htake, hdrop]
      rw [splitGo_joinChars c (q :: ps) f (by simp)
        (fun r hr x hx => hp r (List.mem_cons_of_mem p hr) x hx)
        (by simp at hlen ⊢; omega)]

/-- Splitting a single-character join recovers the parts when no part
contains the separator. -/
theorem strSplit_joinSep (sep : String) (c : Char) (hc : sep.data = [c]) (ss : List String)
    (hne : ss ≠ []) (hparts : ∀ s ∈ ss, ∀ x ∈ s.data, x ≠ c) :
    strSplit (joinSep sep ss) sep = ss := by
  unfold strSplit
  rw [if_neg (by rw [hc]; simp)]
  rw [hc, joinSep_data sep c hc ss]
  rw [splitGo_joinChars c (ss.map (fun s => s.data)) _ (by simpa using hne)
    (by intro p hp x hx
        obtain ⟨s, hs, rfl⟩ := List.mem_map.mp hp
        exact hparts s hs x hx)
    (by
      have h1 := joinChars_parts_le c (ss.map (fun s => s.data))
      have h2 : (ss.map (fun s => s.data)).length = ss.length := List.length_map ..
      omega)]
  rw [List.map_map]
  have : ∀ s : String, String.mk s.data = s := fun s => rfl
  calc ss.map (fun s => String.mk s.data) = ss.map id := by
        apply List.map_congr_left
        intro s _
        rfl
    _ = ss := List.map_id ss

/-- Splitting a string that does not contain the separator yields a
singleton. -/
theorem strSplit_nosep (s : String) (sep : String) (c : Char) (hc : sep.data = [c])
    (h : ∀ x ∈ s.data, x ≠ c) : strSplit s sep = [s] := by
  unfold strSplit
  rw [if_neg (by rw [hc]; simp), hc, splitGo_nosep c _ s.data h]
  rfl

/-- Stripping the default marker from a string that ends in it. -/
theorem stripEorStr_append_dot (X : String) :
    stripEorStr defaults (X ++ ".") = X := by
  unfold stripEorStr
  rw [if_pos, String.data_append]
  · show String.mk ((X.data ++ ['.']).dropLast) = X
    rw [List.dropLast_concat]
  · constructor
    · intro hh
      have := congrArg String.data hh
      rw [String.data_append] at this
      simp at this
    · unfold jsEndsWith
      rw [String.data_append]
      simp [defaults]

/-- Stripping is the identity on strings whose characters never include the
marker. -/
theorem stripEorStr_no_dot (X : String) (h : ∀ x ∈ X.data, x ≠ '.') :
    stripEorStr defaults X = X := by
  unfold stripEorStr
  rcases hd : X.data with - | ⟨x, xs⟩
  · rw [if_neg]
    rintro ⟨h1, -⟩
    exact h1 (by cases X; simp at hd; simp [hd])
  · rw [if_neg]
    rintro ⟨-, h2⟩
    unfold jsEndsWith at h2
    simp only [defaults, decide_eq_true_eq] at h2
    have hlast : X.data.drop (X.data.length - 1) = ['.'] := by
      have := h2.2
      simpa [defaults] using this
    have hmem : '.' ∈ X.data := by
      have : '.' ∈ X.data.drop (X.data.length - 1) := by rw [hlast]; simp
      exact List.mem_of_mem_drop this
    exact h '.' hmem rfl

theorem toB36Go_mem :
    ∀ (fuel n : Nat) (ch : Char), ch ∈ toB36Go fuel n → ∃ v, v < 36 ∧ ch = digit36 v
  | 0, n, ch, h => absurd h (List.not_mem_nil ch)
  | fuel + 1, n, ch, h => by
    unfold toB36Go at h
    by_cases hn : n < 36
    · rw [if_pos hn] at h
      rcases List.mem_singleton.mp h with rfl
      exact ⟨n, hn, rfl⟩
    · rw [if_neg hn] at h
      rcases List.mem_append.mp h with h2 | h2
      · exact toB36Go_mem fuel (n / 36) ch h2
      · rcases List.mem_singleton.mp h2 with rfl
        exact ⟨n % 36, Nat.mod_lt n (by omega), rfl⟩

theorem digit36_ne_dot_slash : ∀ v, v < 36 → digit36 v ≠ '.' ∧ digit36 v ≠ '/' := by
  decide

theorem toB36Go_ne_nil (fuel n : Nat) (h : fuel ≥ 1) : toB36Go fuel n ≠ [] := by
  cases fuel with
  | zero => omega
  | succ f =>
    unfold toB36Go
    by_cases hn : n < 36
    · rw [if_pos hn]; simp
    · rw [if_neg hn]; simp

/-- The characters of the freshly rendered segment `(++n).toString(36).padStart(2,'0')`
never include the default marker or delimiter, and the segment is non-empty,
whenever the incoming `n` is an integer at least `-1` or `NaN`. -/
theorem seg_chars (n : Option Int) (hn : ∀ j, n = some j → -1 ≤ j) :
    (padStart2 (jnumToStr36 (jnumSucc n))).data ≠ [] ∧
    ∀ ch ∈ (padStart2 (jnumToStr36 (jnumSucc n))).data, ch ≠ '.' ∧ ch ≠ '/' := by
  rcases n with - | j
  · exact ⟨by decide, by decide⟩
  · have hj : -1 ≤ j := hn j rfl
    have hj1 : ¬ (j + 1 < 0) := by omega
    have hstep : jnumToStr36 (jnumSucc (some j)) = String.mk (toB36 (j + 1).toNat) := by
      show intToB36 (j + 1) = _
      unfold intToB36
      rw [if_neg hj1]
    rw [hstep]
    unfold padStart2
    have hchars : ∀ ch ∈ (String.mk (toB36 (j + 1).toNat)).data, ch ≠ '.' ∧ ch ≠ '/' := by
      intro ch hch
      obtain ⟨v, hv, rfl⟩ := toB36Go_mem _ _ ch hch
      exact digit36_ne_dot_slash v hv
    by_cases hlen : (String.mk (toB36 (j + 1).toNat)).data.length ≥ 2
    · rw [if_pos hlen]
      refine ⟨?_, hchars⟩
      intro hh
      rw [hh] at hlen
      simp at hlen
    · rw [if_neg hlen]
      constructor
      · intro hh
        rcases List.append_eq_nil.mp hh with ⟨-, h2⟩
        exact toB36Go_ne_nil _ _ (by omega) h2
      · intro ch hch
        show ch ≠ '.' ∧ ch ≠ '/'
        rcases List.mem_append.mp hch with h2 | h2
        · rcases List.eq_of_mem_replicate h2 with rfl
          exact ⟨by decide, by decide⟩
        · exact hchars ch h2

/-! ## Shape of freshly computed keys -/

theorem rootKeyStr_eq (items : List ThreadSortableItem) :
    ∃ n : Option Int, (∀ j, n = some j → -1 ≤ j) ∧
      rootKeyStr defaults items = padStart2 (jnumToStr36 (jnumSucc n)) ++ "." := by
  unfold rootKeyStr
  refine ⟨_, ?_, rfl⟩
  intro j hj
  rcases hmx : stripEor defaults (getMaxThread items) with - | m
  · rw [hmx] at hj
    simp only [] at hj
    injection hj with hh
    omega
  · rw [hmx] at hj
    simp only [] at hj
    split at hj
    · rcases hp : parse36 ((strSplit m defaults.delimiter).headD "") with - | v
      · rw [hp] at hj
        exact Option.noConfusion hj
      · rw [hp] at hj
        injection hj with hh
        have hv : (0 : Int) ≤ Int.ofNat v := Int.ofNat_nonneg v
        omega
    · injection hj with hh
      omega

theorem rootKeyStr_shape (items : List ThreadSortableItem) :
    ∃ seg : String, rootKeyStr defaults items = seg ++ "." ∧ seg.data ≠ [] ∧
      ∀ ch ∈ seg.data, ch ≠ '.' ∧ ch ≠ '/' := by
  obtain ⟨n, hn, heq⟩ := rootKeyStr_eq items
  obtain ⟨h1, h2⟩ := seg_chars n hn
  exact ⟨_, heq, h1, h2⟩

theorem childKeyStr_eq (items : List ThreadSortableItem) (pid : String) (pj : Nat) :
    ∃ n : Option Int, (∀ j, n = some j → -1 ≤ j) ∧
      childKeyStr defaults items pid pj =
        ((stripEor defaults ((items[pj]?).bind (fun t => t.order))).getD "undefined" ++ "/")
          ++ padStart2 (jnumToStr36 (jnumSucc n)) ++ "." := by
  unfold childKeyStr
  refine ⟨_, ?_, rfl⟩
  intro j hj
  rcases hmx : stripEor defaults (getMaxThreadPerThread items pid) with - | m0
  · rw [hmx] at hj
    simp only [] at hj
    injection hj with hh
    omega
  · rw [hmx] at hj
    simp only [] at hj
    rcases hp : parse36 ((strSplit (stripEorStr defaults m0) defaults.delimiter).getD
        ((strSplit (stripEorStr defaults m0) defaults.delimiter).length - 1) "") with - | v
    · rw [hp] at hj
      exact Option.noConfusion hj
    · rw [hp] at hj
      injection hj with hh
      have hv : (0 : Int) ≤ Int.ofNat v := Int.ofNat_nonneg v
      omega

theorem childKeyStr_shape (items : List ThreadSortableItem) (pid : String) (pj : Nat)
    (P : String) (hP : (items[pj]?).bind (fun t => t.order) = some P) :
    ∃ seg : String, childKeyStr defaults items pid pj =
        (stripEorStr defaults P ++ "/") ++ seg ++ "." ∧ seg.data ≠ [] ∧
      ∀ ch ∈ seg.data, ch ≠ '.' ∧ ch ≠ '/' := by
  obtain ⟨n, hn, heq⟩ := childKeyStr_eq items pid pj
  rw [hP] at heq
  obtain ⟨h1, h2⟩ := seg_chars n hn
  refine ⟨_, ?_, h1, h2⟩
  rw [heq]
  rfl

/-! ## C5: a broken parent reference silently degrades to a root -/

theorem filter_set_false (p : ThreadSortableItem → Bool) :
    ∀ (l : List ThreadSortableItem) (i : Nat) (a : ThreadSortableItem),
      (∀ b, l[i]? = some b → p b = false) → p a = false →
      (l.set i a).filter p = l.filter p
  | [], _, _, _, _ => rfl
  | x :: xs, 0, a, hold, hnew => by
    have hx : p x = false := hold x (by simp)
    simp [List.filter, hx, hnew]
  | x :: xs, i + 1, a, hold, hnew => by
    show (x :: xs.set i a).filter p = (x :: xs).filter p
    simp only [List.filter]
    rw [filter_set_false p xs i a (fun b hb => hold b (by simpa using hb)) hnew]

theorem rootKeyStr_congr (a b : List ThreadSortableItem)
    (h : getMaxThread a = getMaxThread b) :
    rootKeyStr defaults a = rootKeyStr defaults b := by
  unfold rootKeyStr
  rw [h]

/-- Branch destructor: an unkeyed item whose parent is absent or
unresolvable is handled by the root branch. -/
theorem populate_root_eq (opt : ThreadSortOptions) (fuel : Nat)
    (st : List ThreadSortableItem) (i : Nat) (c : ThreadSortableItem)
    (hc : st[i]? = some c) (hord : c.order = none)
    (hroot : c.parent = none ∨
      ∃ pid, c.parent = some pid ∧ st.find? (fun it => it.id == pid) = none) :
    populateThreadForItem opt (fuel + 1) st i = .ok (rootAssign opt st i c) := by
  unfold populateThreadForItem
  split
  · rename_i h
    rw [hc] at h
    exact Option.noConfusion h
  · rename_i c' h
    rw [hc] at h
    injection h with hh
    subst hh
    split
    · rename_i w hw
      rw [hord] at hw
      exact Option.noConfusion hw
    · split
      · rfl
      · rename_i pid hpid
        rcases hroot with h2 | ⟨pid', hp', hfind'⟩
        · rw [h2] at hpid
          exact Option.noConfusion hpid
        · rw [hp'] at hpid
          injection hpid with hh2
          subst hh2
          rw [if_pos hfind']

/-- Branch destructor: an unkeyed item with a resolvable parent is handled
by the child branch, recursing on the parent's position first. -/
theorem populate_child_eq (opt : ThreadSortOptions) (fuel : Nat)
    (st : List ThreadSortableItem) (i : Nat) (c : ThreadSortableItem) (pid : String) (pj : Nat)
    (hc : st[i]? = some c) (hord : c.order = none) (hp : c.parent = some pid)
    (hidx : st.findIdx? (fun it => it.id == pid) = some pj) :
    populateThreadForItem opt (fuel + 1) st i =
      match populateThreadForItem opt fuel st pj with
      | .error e => .error e
      | .ok st1 => .ok (childAssign opt st1 i pid pj) := by
  have hfind : ¬ st.find? (fun it => it.id == pid) = none := by
    intro hn
    rw [find?_none_iff_findIdx?_none] at hn
    rw [hidx] at hn
    exact Option.noConfusion hn
  generalize hres : (match populateThreadForItem opt fuel st pj with
      | Except.error e => Except.error e
      | Except.ok st1 => Except.ok (childAssign opt st1 i pid pj)) = res
  unfold populateThreadForItem
  split
  · rename_i h
    rw [hc] at h
    exact Option.noConfusion h
  · rename_i c' h
    rw [hc] at h
    injection h with hh
    subst hh
    split
    · rename_i w hw
      rw [hord] at hw
      exact Option.noConfusion hw
    · split
      · rename_i hpn
        rw [hp] at hpn
        exact Option.noConfusion hpn
      · rename_i pid' hpid
        rw [hp] at hpid
        injection hpid with hh2
        subst hh2
        rw [if_neg hfind, hidx]
        exact hres

/-- Branch destructor: a keyed item (or an out-of-range position) is left
untouched. -/
theorem populate_noop_eq (opt : ThreadSortOptions) (fuel : Nat)
    (st : List ThreadSortableItem) (i : Nat)
    (h : (st[i]?).bind (fun t => t.order) ≠ none ∨ st[i]? = none) :
    populateThreadForItem opt (fuel + 1) st i = .ok st := by
  unfold populateThreadForItem
  split
  · rfl
  · rename_i c hc
    split
    · rfl
    · rename_i hord
      exfalso
      rcases h with h | h
      · rw [hc] at h
        simp [hord] at h
      · rw [hc] at h
        exact Option.noConfusion h

/-- C5: an item whose `parent` id matches no item in the collection is keyed
by the root branch without any error: the populate step returns `.ok`,
writes exactly the root key (computed with an empty prefix), the stripped
key is a single delimiter-free segment, and replacing the broken `parent`
field by an absent one produces the very same key. -/
theorem broken_parent_ref_keys_as_root (fuel : Nat) (st : List ThreadSortableItem)
    (i : Nat) (c : ThreadSortableItem) (pid : String)
    (hc : st[i]? = some c) (hord : c.order = none) (hp : c.parent = some pid)
    (hfind : st.find? (fun it => it.id == pid) = none) :
    populateThreadForItem defaults (fuel + 1) st i =
        .ok (st.set i { c with order := some (rootKeyStr defaults st) }) ∧
      populateThreadForItem defaults (fuel + 1) (st.set i { c with parent := none }) i =
        .ok ((st.set i { c with parent := none }).set i
          { c with parent := none, order := some (rootKeyStr defaults st) }) ∧
      (strSplit (stripEorStr defaults (rootKeyStr defaults st)) "/").length = 1 := by
  have hlt : i < st.length := (List.getElem?_eq_some.mp hc).1
  refine ⟨?_, ?_, ?_⟩
  · rw [populate_root_eq defaults fuel st i c hc hord (Or.inr ⟨pid, hp, hfind⟩)]
    rfl
  · have hget : (st.set i { c with parent := none })[i]? = some { c with parent := none } := by
      simp [List.getElem?_set_self', hlt]
    have hmax : getMaxThread (st.set i { c with parent := none }) = getMaxThread st := by
      unfold getMaxThread
      rw [filter_set_false _ st i _ ?_ ?_]
      · intro b hb
        rw [hc] at hb
        injection hb with hh
        subst hh
        simp [truthyStr, hord]
      · simp [truthyStr, hord]
    rw [populate_root_eq defaults fuel _ i { c with parent := none } hget
      (by exact hord) (Or.inl rfl)]
    unfold rootAssign
    rw [rootKeyStr_congr _ st hmax]
  · obtain ⟨seg, hseg, hne, hch⟩ := rootKeyStr_shape st
    rw [hseg, stripEorStr_append_dot]
    rw [strSplit_nosep seg "/" '/' rfl (fun x hx => (hch x hx).2)]
    rfl

/-- Witness for C2: a concrete one-element collection, keyed on the first
call, is returned unchanged by the second call. -/
theorem sortThread_idempotent_witness :
    sortThread [⟨"a", none, none⟩] defaults = .ok [⟨"a", none, some "00."⟩] ∧
      sortThread [⟨"a", none, some "00."⟩] defaults = .ok [⟨"a", none, some "00."⟩] :=
  ⟨rfl, (sortThread_idempotent [⟨"a", none, none⟩] [⟨"a", none, some "00."⟩] defaults rfl).2⟩

/-- Witness for C5: a single item with the unresolvable parent `"ghost"`
gets the plain root key `"00."`. -/
theorem broken_parent_ref_keys_as_root_witness :
    populateThreadForItem defaults 1 [⟨"a", some "ghost", none⟩] 0 =
      .ok [⟨"a", some "ghost", some "00."⟩] := by
  have h := broken_parent_ref_keys_as_root 0 [⟨"a", some "ghost", none⟩] 0
    ⟨"a", some "ghost", none⟩ "ghost" rfl rfl rfl rfl
  exact h.1.trans (by rfl)

/-! ## C9: the tree renderer -/

/-- One line of `formatThread` as claimed: the parent clause is present
exactly when the item carries a `parent` field. -/
def formatLineClaimed (i : ThreadSortableItem) : String :=
  String.mk (List.replicate (2 * ((match i.order with
      | some o => (strSplit o "/").length
      | none => 1) - 1)) ' ')
    ++ " - item " ++ i.id ++ " "
    ++ (match i.parent with
        | some p => "(parent " ++ p ++ ")"
        | none => "")

/-- One line of `formatThread` as amended: indentation of 2 spaces per
depth level with depth = segment count − 1 (absent key at depth 0), and the
parent clause omitted when the `parent` field is absent **or the empty
string** (JavaScript truthiness). -/
def formatLineAmended (i : ThreadSortableItem) : String :=
  String.mk (List.replicate (2 * ((match i.order with
      | some o => (strSplit o "/").length
      | none => 1) - 1)) ' ')
    ++ " - item " ++ i.id ++ " "
    ++ (match i.parent with
        | some p => if p ≠ "" then "(parent " ++ p ++ ")" else ""
        | none => "")

theorem joinSep_empty_replicate :
    ∀ d : Nat, joinSep "" (List.replicate d "  ") = String.mk (List.replicate (2 * d) ' ')
  | 0 => rfl
  | 1 => rfl
  | d + 2 => by
    show ("  " ++ "" ++ joinSep "" (List.replicate (d + 1) "  ")) = _
    rw [joinSep_empty_replicate (d + 1)]
    apply congrArg String.mk ∘ id
    show (("  " ++ "").data ++ (String.mk (List.replicate (2 * (d + 1)) ' ')).data) = _
    have h1 : ("  " ++ "").data = [' ', ' '] := rfl
    rw [h1]
    show [' ', ' '] ++ List.replicate (2 * (d + 1)) ' ' = List.replicate (2 * (d + 2)) ' '
    have h2 : 2 * (d + 2) = 2 + 2 * (d + 1) := by omega
    rw [h2, List.replicate_add]
    rfl

/-- C9 counterexample: an item whose `parent` field is the empty string has
a parent field, yet `formatThread` omits the parent clause, contradicting
the claim's "omitted exactly when the item has no parent field". -/
theorem formatThread_parent_clause_counterexample :
    formatThread [⟨"a", some "", none⟩] = " - item a " ∧
      joinSep "\n" ([(⟨"a", some "", none⟩ : ThreadSortableItem)].map formatLineClaimed) =
        " - item a (parent )" ∧
      (" - item a " : String) ≠ " - item a (parent )" :=
  ⟨rfl, rfl, by decide⟩

/-- C9 amended: `formatThread` renders, in the array's current order and
joined by newlines, one line per item with exactly `2 * depth` spaces of
indentation (`depth` = delimiter-separated segment count of the key minus
one, and 0 for an absent key), and with the parent clause present exactly
when the `parent` field is a non-empty string.  The function is pure: it
only reads the items. -/
theorem formatThread_spec (items : List ThreadSortableItem) :
    formatThread items = joinSep "\n" (items.map formatLineAmended) := by
  unfold formatThread
  congr 1
  apply List.map_congr_left
  intro i _
  unfold formatLine formatLineAmended
  rw [joinSep_empty_replicate]

/-! ## C10: items whose key is the empty string -/

/-- C10: an empty-string key is never reassigned (the populate step is a
no-op on such an item and the item survives `sortThread` unchanged), the
item is invisible to both maximum-key scans (they filter on truthiness),
and under `compareThread` it sorts strictly before every item holding a
non-empty key. -/
theorem empty_key_behaviour :
    (∀ (fuel : Nat) (st : List ThreadSortableItem) (i : Nat) (c : ThreadSortableItem),
        st[i]? = some c → c.order = some "" →
        populateThreadForItem defaults (fuel + 1) st i = .ok st) ∧
    (∀ (items out : List ThreadSortableItem) (k : Nat) (c : ThreadSortableItem),
        sortThread items defaults = .ok out → items[k]? = some c → c.order = some "" →
        c ∈ out) ∧
    (∀ st : List ThreadSortableItem,
        getMaxThread st = getMaxThread (st.filter (fun t => t.order ≠ some "")) ∧
        ∀ pid, getMaxThreadPerThread st pid =
          getMaxThreadPerThread (st.filter (fun t => t.order ≠ some "")) pid) ∧
    (∀ (a b : ThreadSortableItem) (s : String), a.order = some "" → b.order = some s →
        s ≠ "" → compareThread a b = -1) := by
  refine ⟨?_, ?_, ?_, ?_⟩
  · intro fuel st i c hc hord
    exact populate_noop_eq defaults fuel st i (Or.inl (by rw [hc]; simp [hord]))
  · intro items out k c h hc hord
    obtain ⟨st, hst, -, e, hperm⟩ := sortThread_ok_spec items out defaults h
    rcases e.2 k c hc with h2 | ⟨h2, -⟩
    · exact hperm.mem_iff.mpr (List.getElem?_mem h2)
    · rw [hord] at h2
      exact Option.noConfusion h2
  · intro st
    have hpt : ∀ t : ThreadSortableItem,
        (truthyStr t.order && decide (¬ t.order = some "")) = truthyStr t.order := by
      intro t
      rcases ho : t.order with - | s
      · simp [truthyStr]
      · by_cases hs : s = ""
        · subst hs
          simp [truthyStr]
        · simp [truthyStr, hs]
    constructor
    · unfold getMaxThread
      rw [List.filter_filter]
      rw [List.filter_congr (fun t _ => hpt t)]
    · intro pid
      unfold getMaxThreadPerThread
      rw [List.filter_filter]
      have hpe : ∀ t ∈ st,
          ((t.parent == some pid && truthyStr t.order) && decide (¬ t.order = some "")) =
            (t.parent == some pid && truthyStr t.order) := by
        intro t _
        rcases ho : t.order with - | s
        · simp [truthyStr]
        · by_cases hs : s = ""
          · subst hs
            simp [truthyStr]
          · simp [truthyStr, hs]
      rw [List.filter_congr hpe]
  · intro a b s ha hb hs
    rw [compareThread_some a b "" s ha hb]
    rcases hd : s.data with - | ⟨c, cs⟩
    · exfalso
      apply hs
      have hd2 : s.data = [] := hd
      cases s
      cases hd2
      rfl
    · show listCmp [] (c :: cs) = -1
      rfl

/-- Witness for C10 at concrete inputs. -/
theorem empty_key_behaviour_witness :
    populateThreadForItem defaults 1 [⟨"a", none, some ""⟩] 0 = .ok [⟨"a", none, some ""⟩] ∧
      (⟨"a", none, some ""⟩ : ThreadSortableItem) ∈
        [(⟨"a", none, some ""⟩ : ThreadSortableItem), ⟨"b", none, some "00."⟩] ∧
      compareThread ⟨"a", none, some ""⟩ ⟨"b", none, some "00."⟩ = -1 :=
  ⟨empty_key_behaviour.1 0 [⟨"a", none, some ""⟩] 0 ⟨"a", none, some ""⟩ rfl rfl,
    empty_key_behaviour.2.1 [⟨"a", none, some ""⟩, ⟨"b", none, none⟩]
      [⟨"a", none, some ""⟩, ⟨"b", none, some "00."⟩] 0 ⟨"a", none, some ""⟩ rfl rfl rfl,
    empty_key_behaviour.2.2.2 ⟨"a", none, some ""⟩ ⟨"b", none, some "00."⟩ "00." rfl rfl
      (by decide)⟩

/-! ## C6: the root-case key formula -/

/-- The root-case key as the claim states it: the scan is restricted to
currently-keyed **root** items (items whose parent is absent or does not
resolve). -/
def rootKeyClaimed (items : List ThreadSortableItem) : String :=
  let keyedRoots := items.filter (fun t => truthyStr t.order &&
    (match t.parent with
     | none => true
     | some pid => ((items.find? (fun it => it.id == pid)).isNone : Bool)))
  let max := stripEor defaults
    ((sortCmp compareThread keyedRoots).getLast?.bind (fun t => t.order))
  let n : Option Int := match max with
    | some m => if m ≠ "" then (parse36 ((strSplit m "/").headD "")).map Int.ofNat else some (-1)
    | none => some (-1)
  padStart2 (jnumToStr36 (jnumSucc n)) ++ "."

/-- The maximum truthy key among **all** items, written directly as a
recursive maximum (the amended claim's "maximum key among all
currently-keyed items"). -/
def maxKeyFold : List ThreadSortableItem → Option String
  | [] => none
  | it :: rest =>
    match it.order with
    | some s =>
      if s ≠ "" then
        (match maxKeyFold rest with
         | none => some s
         | some M => if listCmp s.data M.data ≤ 0 then some M else some s)
      else maxKeyFold rest
    | none => maxKeyFold rest

/-- The root-case key as amended: scan all keyed items, not only roots. -/
def rootKeyAmended (items : List ThreadSortableItem) : String :=
  let max := stripEor defaults (maxKeyFold items)
  let n : Option Int := match max with
    | some m => if m ≠ "" then (parse36 ((strSplit m "/").headD "")).map Int.ofNat else some (-1)
    | none => some (-1)
  padStart2 (jnumToStr36 (jnumSucc n)) ++ "."

theorem maxKeyFold_cons (it : ThreadSortableItem) (rest : List ThreadSortableItem) :
    maxKeyFold (it :: rest) =
      (match it.order with
       | some s =>
         if s ≠ "" then
           (match maxKeyFold rest with
            | none => some s
            | some M => if listCmp s.data M.data ≤ 0 then some M else some s)
         else maxKeyFold rest
       | none => maxKeyFold rest) := rfl

theorem maxKeyFold_cons_none (it : ThreadSortableItem) (rest : List ThreadSortableItem)
    (h : it.order = none) : maxKeyFold (it :: rest) = maxKeyFold rest := by
  rw [maxKeyFold_cons, h]

theorem maxKeyFold_cons_empty (it : ThreadSortableItem) (rest : List ThreadSortableItem)
    (h : it.order = some "") : maxKeyFold (it :: rest) = maxKeyFold rest := by
  rw [maxKeyFold_cons, h]
  simp

theorem maxKeyFold_cons_some (it : ThreadSortableItem) (rest : List ThreadSortableItem)
    (s : String) (h : it.order = some s) (hs : s ≠ "") :
    maxKeyFold (it :: rest) =
      (match maxKeyFold rest with
       | none => some s
       | some M => if listCmp s.data M.data ≤ 0 then some M else some s) := by
  rw [maxKeyFold_cons, h]
  simp [hs]

theorem maxKeyFold_none_iff :
    ∀ l : List ThreadSortableItem, maxKeyFold l = none ↔ ∀ it ∈ l, truthyStr it.order = false
  | [] => by simp [maxKeyFold]
  | it :: rest => by
    have hrest := maxKeyFold_none_iff rest
    rcases ho : it.order with - | s
    · rw [maxKeyFold_cons_none it rest ho, hrest]
      constructor
      · intro h x hx
        rcases List.mem_cons.mp hx with rfl | hx2
        · rw [ho]; rfl
        · exact h x hx2
      · intro h x hx
        exact h x (List.mem_cons_of_mem it hx)
    · by_cases hs : s = ""
      · subst hs
        rw [maxKeyFold_cons_empty it rest ho, hrest]
        constructor
        · intro h x hx
          rcases List.mem_cons.mp hx with rfl | hx2
          · rw [ho]; rfl
          · exact h x hx2
        · intro h x hx
          exact h x (List.mem_cons_of_mem it hx)
      · rw [maxKeyFold_cons_some it rest s ho hs]
        constructor
        · intro h
          exfalso
          rcases hm : maxKeyFold rest with - | M <;> rw [hm] at h
          · exact Option.noConfusion h
          · by_cases hcmp : listCmp s.data M.data ≤ 0 <;>
              simp [hcmp] at h
        · intro h
          exfalso
          have := h it (List.mem_cons_self it rest)
          rw [ho] at this
          simp [truthyStr, hs] at this

theorem maxKeyFold_some :
    ∀ (l : List ThreadSortableItem) (M : String), maxKeyFold l = some M →
      (∃ it ∈ l, it.order = some M ∧ M ≠ "") ∧
        ∀ it ∈ l, ∀ s, it.order = some s → s ≠ "" → listCmp s.data M.data ≤ 0
  | [], M, h => Option.noConfusion h
  | it :: rest, M, h => by
    rcases ho : it.order with - | s
    · rw [maxKeyFold_cons_none it rest ho] at h
      obtain ⟨⟨w, hw, hw2⟩, hmax⟩ := maxKeyFold_some rest M h
      refine ⟨⟨w, List.mem_cons_of_mem it hw, hw2⟩, ?_⟩
      intro x hx s2 hs2 hs2ne
      rcases List.mem_cons.mp hx with rfl | hx2
      · rw [ho] at hs2
        exact Option.noConfusion hs2
      · exact hmax x hx2 s2 hs2 hs2ne
    · by_cases hs : s = ""
      · subst hs
        rw [maxKeyFold_cons_empty it rest ho] at h
        obtain ⟨⟨w, hw, hw2⟩, hmax⟩ := maxKeyFold_some rest M h
        refine ⟨⟨w, List.mem_cons_of_mem it hw, hw2⟩, ?_⟩
        intro x hx s2 hs2 hs2ne
        rcases List.mem_cons.mp hx with rfl | hx2
        · rw [ho] at hs2
          injection hs2 with hh
          exact absurd hh.symm hs2ne
        · exact hmax x hx2 s2 hs2 hs2ne
      · rw [maxKeyFold_cons_some it rest s ho hs] at h
        rcases hm : maxKeyFold rest with - | M0
        · rw [hm] at h
          injection h with hh
          subst hh
          refine ⟨⟨it, List.mem_cons_self it rest, ho, hs⟩, ?_⟩
          intro x hx s2 hs2 hs2ne
          rcases List.mem_cons.mp hx with rfl | hx2
          · rw [ho] at hs2
            injection hs2 with hh2
            subst hh2
            rw [listCmp_self]
          · exfalso
            have hn := (maxKeyFold_none_iff rest).mp hm x hx2
            rw [hs2] at hn
            simp [truthyStr, hs2ne] at hn
        · rw [hm] at h
          simp only [] at h
          obtain ⟨⟨w, hw, hw2⟩, hmax0⟩ := maxKeyFold_some rest M0 hm
          by_cases hcmp : listCmp s.data M0.data ≤ 0
          · rw [if_pos hcmp] at h
            injection h with hh
            subst hh
            refine ⟨⟨w, List.mem_cons_of_mem it hw, hw2⟩, ?_⟩
            intro x hx s2 hs2 hs2ne
            rcases List.mem_cons.mp hx with rfl | hx2
            · rw [ho] at hs2
              injection hs2 with hh2
              subst hh2
              exact hcmp
            · exact hmax0 x hx2 s2 hs2 hs2ne
          · rw [if_neg hcmp] at h
            injection h with hh
            subst hh
            refine ⟨⟨it, List.mem_cons_self it rest, ho, hs⟩, ?_⟩
            intro x hx s2 hs2 hs2ne
            rcases List.mem_cons.mp hx with rfl | hx2
            · rw [ho] at hs2
              injection hs2 with hh2
              subst hh2
              rw [listCmp_self]
            · have h1 := hmax0 x hx2 s2 hs2 hs2ne
              have h2 : listCmp M0.data s.data ≤ 0 := by
                have := listCmp_neg M0.data s.data
                omega
              exact listCmp_trans_le s2.data M0.data s.data h1 h2

/-- The sort-and-pop scan of the source equals the plain recursive maximum. -/
theorem getMaxThread_eq_fold (items : List ThreadSortableItem) :
    getMaxThread items = maxKeyFold items := by
  rcases h : maxKeyFold items with - | M
  · rw [getMaxThread_none_iff]
    rw [maxKeyFold_none_iff] at h
    exact List.filter_eq_nil_iff.mpr (fun a ha => by rw [h a ha]; simp)
  · obtain ⟨hmem, hmax⟩ := maxKeyFold_some items M h
    exact getMaxThread_eq_some items M hmem hmax

/-- C6 counterexample: with a keyed root `"05."` and a keyed **child**
`"zz."`, the unkeyed root gets key `"100."` (the scan includes the child's
key), while the claim's roots-only formula predicts `"06."`. -/
theorem root_key_scan_counterexample :
    sortThread [⟨"r", none, some "05."⟩, ⟨"c", some "r", some "zz."⟩, ⟨"x", none, none⟩]
        defaults =
      .ok [⟨"r", none, some "05."⟩, ⟨"x", none, some "100."⟩, ⟨"c", some "r", some "zz."⟩] ∧
      rootKeyClaimed [⟨"r", none, some "05."⟩, ⟨"c", some "r", some "zz."⟩, ⟨"x", none, none⟩]
        = "06." ∧
      ("100." : String) ≠ "06." :=
  ⟨rfl, rfl, by decide⟩

/-- C6 amended: when the root branch keys an item, the new key is
`(n+1).toString(36).padStart(2,'0')` plus the marker and nothing else,
where `n` is the base-36 value of the first delimiter segment of the
maximum key (under string comparison) among **all** currently-keyed items
with a truthy key, or −1 when no such key exists or the maximum strips to
the empty string. -/
theorem root_key_formula (fuel : Nat) (st : List ThreadSortableItem) (i : Nat)
    (c : ThreadSortableItem) (hc : st[i]? = some c) (hord : c.order = none)
    (hroot : c.parent = none ∨
      ∃ pid, c.parent = some pid ∧ st.find? (fun it => it.id == pid) = none) :
    populateThreadForItem defaults (fuel + 1) st i =
      .ok (st.set i { c with order := some (rootKeyAmended st) }) := by
  rw [populate_root_eq defaults fuel st i c hc hord hroot]
  unfold rootAssign
  have heq : rootKeyStr defaults st = rootKeyAmended st := by
    unfold rootKeyStr rootKeyAmended
    rw [getMaxThread_eq_fold]
    rcases stripEor defaults (maxKeyFold st) with - | m <;> rfl
  rw [heq]

/-- Witness for C6 at a concrete input exercising the maximum scan. -/
theorem root_key_formula_witness :
    populateThreadForItem defaults 1 [⟨"r", none, some "05."⟩, ⟨"x", none, none⟩] 1 =
      .ok [⟨"r", none, some "05."⟩, ⟨"x", none, some "06."⟩] := by
  have h := root_key_formula 0 [⟨"r", none, some "05."⟩, ⟨"x", none, none⟩] 1
    ⟨"x", none, none⟩ rfl rfl (Or.inl rfl)
  exact h.trans (by rfl)

/-! ## Ancestor chains through first-match parent resolution -/

/-- Position of the first item whose id equals `k`'s parent id. -/
def parentIdx (st : List ThreadSortableItem) (k : Nat) : Option Nat :=
  (st[k]?).bind (fun c => c.parent.bind (fun pid => st.findIdx? (fun it => it.id == pid)))

/-- `m`-fold parent-position iteration. -/
def iterUp (st : List ThreadSortableItem) : Nat → Nat → Option Nat
  | 0, k => some k
  | m + 1, k =>
    match parentIdx st k with
    | none => none
    | some j => iterUp st m j

theorem iterUp_succ_eq (st : List ThreadSortableItem) (m k : Nat) :
    iterUp st (m + 1) k =
      (match parentIdx st k with
       | none => none
       | some j => iterUp st m j) := rfl

theorem iterUp_snoc (st : List ThreadSortableItem) :
    ∀ (m k : Nat), iterUp st (m + 1) k = (iterUp st m k).bind (fun j => parentIdx st j)
  | 0, k => by
    rw [iterUp_succ_eq st 0 k]
    rcases hp : parentIdx st k with - | j
    · show none = (some k).bind (fun j => parentIdx st j)
      rw [Option.some_bind]
      exact hp.symm
    · show some j = (some k).bind (fun j => parentIdx st j)
      rw [Option.some_bind]
      exact hp.symm
  | m + 1, k => by
    rw [iterUp_succ_eq st (m + 1) k, iterUp_succ_eq st m k]
    rcases hp : parentIdx st k with - | j
    · rfl
    · exact iterUp_snoc st m j

theorem iterUp_add (st : List ThreadSortableItem) :
    ∀ (a b k : Nat), iterUp st (a + b) k = (iterUp st b k).bind (fun j => iterUp st a j)
  | a, 0, k => rfl
  | a, b + 1, k => by
    rw [show a + (b + 1) = (a + b) + 1 by omega]
    rw [iterUp_succ_eq st (a + b) k, iterUp_succ_eq st b k]
    rcases hp : parentIdx st k with - | j
    · rfl
    · show iterUp st (a + b) j = (iterUp st b j).bind (fun j => iterUp st a j)
      exact iterUp_add st a b j

/-- On a parent cycle, every iterate collapses to one of the first `m + 1`
iterates. -/
theorem iterUp_cycle_reduce (st : List ThreadSortableItem) (x m : Nat)
    (hcyc : iterUp st (m + 1) x = some x) :
    ∀ m', ∃ r, r ≤ m ∧ iterUp st m' x = iterUp st r x := by
  intro m'
  induction m' using Nat.strong_induction_on with
  | _ m' ih =>
    by_cases hle : m' ≤ m
    · exact ⟨m', hle, rfl⟩
    · push_neg at hle
      have hsplit : m' = (m' - (m + 1)) + (m + 1) := by omega
      have heq : iterUp st m' x = iterUp st (m' - (m + 1)) x := by
        conv_lhs => rw [hsplit]
        rw [iterUp_add st (m' - (m + 1)) (m + 1) x, hcyc]
        rw [Option.some_bind]
      obtain ⟨r, hr, hr2⟩ := ih (m' - (m + 1)) (by omega)
      exact ⟨r, hr, heq.trans hr2⟩

/-- Rotating a parent cycle by one step yields a cycle of the same length. -/
theorem iterUp_cycle_rotate (st : List ThreadSortableItem) (x y m : Nat)
    (hcyc : iterUp st (m + 1) x = some x) (hstep : parentIdx st x = some y) :
    iterUp st (m + 1) y = some y := by
  have h1 : iterUp st m y = some x := by
    have : iterUp st (m + 1) x =
        (match parentIdx st x with
         | none => none
         | some j => iterUp st m j) := rfl
    rw [this, hstep] at hcyc
    exact hcyc
  rw [iterUp_snoc st m y, h1]
  simpa using hstep

/-- A populate call on an item lying on an all-unkeyed parent cycle can
never succeed: it recurses around the cycle until the fuel is exhausted. -/
theorem populate_cycle_err (opt : ThreadSortOptions) :
    ∀ (fuel : Nat) (st : List ThreadSortableItem) (x m : Nat)
      (st' : List ThreadSortableItem),
      iterUp st (m + 1) x = some x →
      (∀ m' y, iterUp st m' x = some y → (st[y]?).bind (fun t => t.order) = none) →
      populateThreadForItem opt fuel st x ≠ .ok st'
  | 0, st, x, m, st', hcyc, hunk => by simp [populateThreadForItem]
  | fuel + 1, st, x, m, st', hcyc, hunk => by
    intro h
    have hx : (st[x]?).bind (fun t => t.order) = none := hunk 0 x rfl
    have hstep : ∃ y, parentIdx st x = some y := by
      rcases hp : parentIdx st x with - | y
      · exfalso
        have : iterUp st (m + 1) x =
            (match parentIdx st x with
             | none => none
             | some j => iterUp st m j) := rfl
        rw [this, hp] at hcyc
        exact Option.noConfusion hcyc
      · exact ⟨y, rfl⟩
    obtain ⟨y, hy⟩ := hstep
    rcases hc : st[x]? with - | c
    · rw [hc] at hx
      unfold parentIdx at hy
      rw [hc] at hy
      exact Option.noConfusion hy
    · have hcord : c.order = none := by
        rw [hc] at hx
        simpa using hx
      obtain ⟨pid, hpid, hidx⟩ : ∃ pid, c.parent = some pid ∧
          st.findIdx? (fun it => it.id == pid) = some y := by
        unfold parentIdx at hy
        rw [hc] at hy
        simp only [Option.some_bind] at hy
        rcases hp2 : c.parent with - | pid
        · rw [hp2] at hy
          exact Option.noConfusion hy
        · rw [hp2] at hy
          exact ⟨pid, rfl, by simpa using hy⟩
      rw [populate_child_eq opt fuel st x c pid y hc hcord hpid hidx] at h
      rcases hrec : populateThreadForItem opt fuel st y with e | st1
      · rw [hrec] at h
        exact Except.noConfusion h
      · exact populate_cycle_err opt fuel st y m st1
          (iterUp_cycle_rotate st x y m hcyc hy)
          (fun m' z hz => hunk (m' + 1) z (by
            rw [iterUp_add st m' 1 x]
            have h1 : iterUp st 1 x = some y := by
              show (match parentIdx st x with
                | none => none
                | some j => iterUp st 0 j) = some y
              rw [hy]
              rfl
            rw [h1]
            simpa using hz)) hrec

/-- Every item newly keyed by `populateThreadForItem st j` lies on the
all-unkeyed ancestor path starting at `j`. -/
theorem populate_new_keys_anc (opt : ThreadSortOptions) :
    ∀ (fuel : Nat) (st : List ThreadSortableItem) (j : Nat) (st' : List ThreadSortableItem),
      populateThreadForItem opt fuel st j = .ok st' →
      ∀ k, (st[k]?).bind (fun t => t.order) = none →
        (st'[k]?).bind (fun t => t.order) ≠ none →
        ∃ m, iterUp st m j = some k ∧
          ∀ m' x, m' ≤ m → iterUp st m' j = some x →
            (st[x]?).bind (fun t => t.order) = none
  | 0, st, j, st', h, k, hk, hk' => by simp [populateThreadForItem] at h
  | fuel + 1, st, j, st', h, k, hk, hk' => by
    rcases hc : st[j]? with - | c
    · rw [populate_noop_eq opt fuel st j (Or.inr hc)] at h
      injection h with hh
      subst hh
      exact absurd hk hk'
    · rcases hcord : c.order with - | w
      · rcases hpar : c.parent with - | pid
        · rw [populate_root_eq opt fuel st j c hc hcord (Or.inl hpar)] at h
          injection h with hh
          subst hh
          unfold rootAssign at hk'
          by_cases hkj : k = j
          · subst hkj
            exact ⟨0, rfl, fun m' x hm' hx => by
              interval_cases m'
              injection hx with hh2
              subst hh2
              exact hk⟩
          · rw [List.getElem?_set_ne (fun hh2 => hkj hh2.symm)] at hk'
            exact absurd hk hk'
        · rcases hfind : st.find? (fun it => it.id == pid) with - | pit
          · rw [populate_root_eq opt fuel st j c hc hcord (Or.inr ⟨pid, hpar, hfind⟩)] at h
            injection h with hh
            subst hh
            unfold rootAssign at hk'
            by_cases hkj : k = j
            · subst hkj
              exact ⟨0, rfl, fun m' x hm' hx => by
                interval_cases m'
                injection hx with hh2
                subst hh2
                exact hk⟩
            · rw [List.getElem?_set_ne (fun hh2 => hkj hh2.symm)] at hk'
              exact absurd hk hk'
          · obtain ⟨pj, hidx⟩ : ∃ pj, st.findIdx? (fun it => it.id == pid) = some pj := by
              rcases hidx0 : st.findIdx? (fun it => it.id == pid) with - | pj
              · exfalso
                have := (find?_none_iff_findIdx?_none (fun it => it.id == pid) st).mpr hidx0
                rw [hfind] at this
                exact Option.noConfusion this
              · exact ⟨pj, hidx0⟩
            rw [populate_child_eq opt fuel st j c pid pj hc hcord hpar hidx] at h
            rcases hrec : populateThreadForItem opt fuel st pj with e | st1
            · rw [hrec] at h
              exact Except.noConfusion h
            · rw [hrec] at h
              injection h with hh
              subst hh
              have hpidx : parentIdx st j = some pj := by
                unfold parentIdx
                rw [hc]
                simp only [Option.some_bind]
                rw [hpar]
                simpa using hidx
              by_cases hkj : k = j
              · subst hkj
                exact ⟨0, rfl, fun m' x hm' hx => by
                  interval_cases m'
                  injection hx with hh2
                  subst hh2
                  exact hk⟩
              · have hk1 : (st1[k]?).bind (fun t => t.order) ≠ none := by
                  intro hnone
                  apply hk'
                  unfold childAssign
                  rcases hc1 : st1[k]? with - | c2
                  · split
                    · rw [hc1]
                      rfl
                    · rename_i c3 hc3
                      rw [List.getElem?_set_ne (fun hh2 => hkj hh2.symm), hc1]
                      rfl
                  · split
                    · rw [hc1] at hnone ⊢
                      exact hnone
                    · rename_i c3 hc3
                      rw [List.getElem?_set_ne (fun hh2 => hkj hh2.symm), hc1]
                      rw [hc1] at hnone
                      exact hnone
                obtain ⟨m, hm, hunk⟩ :=
                  populate_new_keys_anc opt fuel st pj st1 hrec k hk hk1
                refine ⟨m + 1, ?_, ?_⟩
                · show (match parentIdx st j with
                    | none => none
                    | some j2 => iterUp st m j2) = some k
                  rw [hpidx]
                  exact hm
                · intro m' x hm' hx
                  cases m' with
                  | zero =>
                    injection hx with hh2
                    subst hh2
                    rw [hc]
                    simp [hcord]
                  | succ m2 =>
                    have hx2 : iterUp st m2 pj = some x := by
                      have : iterUp st (m2 + 1) j =
                          (match parentIdx st j with
                           | none => none
                           | some j2 => iterUp st m2 j2) := rfl
                      rw [this, hpidx] at hx
                      exact hx
                    exact hunk m2 x (by omega) hx2
      · rw [populate_noop_eq opt fuel st j (Or.inl (by rw [hc]; simp [hcord]))] at h
        injection h with hh
        subst hh
        exact absurd hk hk'

theorem str_ne_empty_iff_data (s : String) : s ≠ "" ↔ s.data ≠ [] := by
  constructor
  · intro h hd
    apply h
    cases s
    subst hd
    rfl
  · intro h hs
    subst hs
    exact h rfl

/-- A parent's full key compares strictly below any key of the form
`strip(parent) ++ "/" ++ seg ++ "."` with a non-empty segment. -/
theorem parent_lt_child_key (P seg : String) (hseg : seg.data ≠ []) :
    listCmp P.data (((stripEorStr defaults P ++ "/") ++ seg ++ ".").data) = -1 := by
  have hKdata : (((stripEorStr defaults P ++ "/") ++ seg ++ ".").data) =
      (stripEorStr defaults P).data ++ '/' :: (seg.data ++ ['.']) := by
    rw [String.data_append, String.data_append, String.data_append]
    simp
  rw [hKdata]
  unfold stripEorStr
  by_cases hcond : P ≠ "" ∧ jsEndsWith P defaults.endOfRecord
  · rw [if_pos hcond]
    have hne : P.data ≠ [] := (str_ne_empty_iff_data P).mp hcond.1
    have hlast : P.data.getLast hne = '.' := by
      have h2 := hcond.2
      unfold jsEndsWith at h2
      simp only [decide_eq_true_eq] at h2
      have hdl : P.data.drop (P.data.length - 1) = ['.'] := h2.2
      have hlen2 : P.data.dropLast.length = P.data.length - 1 := by
        rw [List.length_dropLast]
      have h3 : P.data.drop (P.data.length - 1) = [P.data.getLast hne] := by
        conv_lhs => rw [← List.dropLast_append_getLast hne]
        have hlen3 : (P.data.dropLast ++ [P.data.getLast hne]).length - 1 =
            P.data.dropLast.length := by simp
        rw [hlen3]
        exact List.drop_left _ _
      rw [h3] at hdl
      simpa using hdl
    have hPdata : P.data = P.data.dropLast ++ ['.'] := by
      conv_lhs => rw [← List.dropLast_append_getLast hne]
      rw [hlast]
    show listCmp P.data (P.data.dropLast ++ '/' :: (seg.data ++ ['.'])) = -1
    set A := P.data.dropLast with hA
    rw [hPdata]
    rw [listCmp_append A ['.'] ('/' :: (seg.data ++ ['.']))]
    show (if ('.' : Char) < '/' then (-1 : Int)
      else if ('/' : Char) < '.' then 1 else listCmp [] (seg.data ++ ['.'])) = -1
    rw [if_pos (by decide)]
  · rw [if_neg hcond]
    exact listCmp_self_append P.data ('/' :: (seg.data ++ ['.'])) (by simp)

theorem findIdx?_evolves {st st' : List ThreadSortableItem} (e : Evolves st st')
    (pid : String) :
    st'.findIdx? (fun it => it.id == pid) = st.findIdx? (fun it => it.id == pid) := by
  have h1 : st'.findIdx? (fun it => it.id == pid) =
      (st'.map (fun t => t.id)).findIdx? (fun s => s == pid) := by
    rw [List.findIdx?_map]
    rfl
  have h2 : st.findIdx? (fun it => it.id == pid) =
      (st.map (fun t => t.id)).findIdx? (fun s => s == pid) := by
    rw [List.findIdx?_map]
    rfl
  rw [h1, h2, evolves_map_id e]

/-! ## C4: the ancestor-prefix invariant for keys assigned during the call -/

/-- Keys assigned during the run respect the parent prefix: an item that
started without a key and whose parent reference resolves carries a key of
the form `strip(parent's current key) ++ "/" ++ seg ++ "."`. -/
def ChildShape (st0 st : List ThreadSortableItem) : Prop :=
  ∀ (k : Nat) (c0 c : ThreadSortableItem) (pid : String) (pj : Nat) (p : String),
    st0[k]? = some c0 → c0.order = none →
    st[k]? = some c → c.order = some p →
    c.parent = some pid → st.findIdx? (fun it => it.id == pid) = some pj →
    ∃ P seg, (st[pj]?).bind (fun t => t.order) = some P ∧
      p = (stripEorStr defaults P ++ "/") ++ seg ++ "." ∧
      seg.data ≠ [] ∧ ∀ ch ∈ seg.data, ch ≠ '.' ∧ ch ≠ '/'

theorem childShape_init (st0 : List ThreadSortableItem) : ChildShape st0 st0 := by
  intro k c0 c pid pj p h0 h0ord hc hcord hpar hidx
  rw [h0] at hc
  injection hc with hh
  subst hh
  rw [h0ord] at hcord
  exact Option.noConfusion hcord

theorem rootAssign_eq_set (opt : ThreadSortOptions) (st : List ThreadSortableItem)
    (i : Nat) (c : ThreadSortableItem) :
    rootAssign opt st i c = st.set i { c with order := some (rootKeyStr opt st) } := rfl

theorem childShape_rootAssign (st0 st : List ThreadSortableItem) (i : Nat)
    (c : ThreadSortableItem) (hc : st[i]? = some c) (hcord : c.order = none)
    (hroot : c.parent = none ∨
      ∃ pid, c.parent = some pid ∧ st.find? (fun it => it.id == pid) = none)
    (inv : ChildShape st0 st) : ChildShape st0 (rootAssign defaults st i c) := by
  have hlt : i < st.length := (List.getElem?_eq_some.mp hc).1
  have eset : Evolves st (rootAssign defaults st i c) := by
    rw [rootAssign_eq_set]
    exact evolves_set hc hcord _
  intro k c0 ck pidk pjk pk h0 h0ord hck hckord hckpar hidxk
  have hidfix := findIdx?_evolves eset pidk
  by_cases hki : k = i
  · subst hki
    have hck2 : ck = { c with order := some (rootKeyStr defaults st) } := by
      rw [rootAssign_eq_set] at hck
      have hsi : (st.set k { c with order := some (rootKeyStr defaults st) })[k]? =
          some { c with order := some (rootKeyStr defaults st) } := by
        simp [List.getElem?_set_self', hlt]
      rw [hsi] at hck
      injection hck with hh
      exact hh.symm
    have hcpar : c.parent = some pidk := by
      rw [hck2] at hckpar
      exact hckpar
    rcases hroot with hn | ⟨pid, hp2, hf2⟩
    · rw [hn] at hcpar
      exact Option.noConfusion hcpar
    · rw [hp2] at hcpar
      injection hcpar with hh
      subst hh
      rw [hidfix] at hidxk
      rw [find?_none_iff_findIdx?_none] at hf2
      rw [hf2] at hidxk
      exact Option.noConfusion hidxk
  · have hck1 : st[k]? = some ck := by
      rw [rootAssign_eq_set] at hck
      rw [List.getElem?_set_ne (fun hh => hki hh.symm)] at hck
      exact hck
    have hidx1 : st.findIdx? (fun it => it.id == pidk) = some pjk := by
      rw [← hidfix]
      exact hidxk
    obtain ⟨P, seg, hP, hsh, hsne, hsch⟩ :=
      inv k c0 ck pidk pjk pk h0 h0ord hck1 hckord hckpar hidx1
    by_cases hpjk : pjk = i
    · exfalso
      rw [hpjk, hc] at hP
      simp [hcord] at hP
    · refine ⟨P, seg, ?_, hsh, hsne, hsch⟩
      rw [rootAssign_eq_set, List.getElem?_set_ne (fun hh => hpjk hh.symm)]
      exact hP

theorem populate_childShape (st0 : List ThreadSortableItem) :
    ∀ (fuel : Nat) (st : List ThreadSortableItem) (i : Nat) (st' : List ThreadSortableItem),
      populateThreadForItem defaults fuel st i = .ok st' →
      ChildShape st0 st → ChildShape st0 st'
  | 0, st, i, st', h, inv => by simp [populateThreadForItem] at h
  | fuel + 1, st, i, st', h, inv => by
    rcases hc : st[i]? with - | c
    · rw [populate_noop_eq defaults fuel st i (Or.inr hc)] at h
      injection h with hh
      subst hh
      exact inv
    · rcases hcord : c.order with - | w
      · rcases hpar : c.parent with - | pid
        · rw [populate_root_eq defaults fuel st i c hc hcord (Or.inl hpar)] at h
          injection h with hh
          subst hh
          exact childShape_rootAssign st0 st i c hc hcord (Or.inl hpar) inv
        · rcases hfind : st.find? (fun it => it.id == pid) with - | pit
          · rw [populate_root_eq defaults fuel st i c hc hcord (Or.inr ⟨pid, hpar, hfind⟩)] at h
            injection h with hh
            subst hh
            exact childShape_rootAssign st0 st i c hc hcord (Or.inr ⟨pid, hpar, hfind⟩) inv
          · obtain ⟨pj, hidx⟩ : ∃ pj, st.findIdx? (fun it => it.id == pid) = some pj := by
              rcases hidx0 : st.findIdx? (fun it => it.id == pid) with - | pj
              · exfalso
                have := (find?_none_iff_findIdx?_none (fun it => it.id == pid) st).mpr hidx0
                rw [hfind] at this
                exact Option.noConfusion this
              · exact ⟨pj, hidx0⟩
            rw [populate_child_eq defaults fuel st i c pid pj hc hcord hpar hidx] at h
            rcases hrec : populateThreadForItem defaults fuel st pj with e | st1
            · rw [hrec] at h
              exact Except.noConfusion h
            · rw [hrec] at h
              injection h with hh
              have e1 := populate_evolves defaults fuel st pj st1 hrec
              have inv1 := populate_childShape st0 fuel st pj st1 hrec inv
              have hpidx : parentIdx st i = some pj := by
                unfold parentIdx
                rw [hc]
                simp only [Option.some_bind]
                rw [hpar]
                simpa using hidx
              have hk0 : (st[i]?).bind (fun t => t.order) = none := by
                rw [hc]
                simp [hcord]
              have hst1i : st1[i]? = some c := by
                rcases e1.2 i c hc with hkeep | ⟨-, w0, hset⟩
                · exact hkeep
                · exfalso
                  have hk1 : (st1[i]?).bind (fun t => t.order) ≠ none := by
                    rw [hset]
                    simp
                  obtain ⟨m, hm, hunk⟩ :=
                    populate_new_keys_anc defaults fuel st pj st1 hrec i hk0 hk1
                  have hcyc : iterUp st (m + 1) pj = some pj := by
                    rw [iterUp_snoc st m pj, hm]
                    simpa using hpidx
                  have hallunk : ∀ m' y, iterUp st m' pj = some y →
                      (st[y]?).bind (fun t => t.order) = none := by
                    intro m' y hy
                    obtain ⟨r, hr, hr2⟩ := iterUp_cycle_reduce st pj m hcyc m'
                    rw [hr2] at hy
                    exact hunk r y hr hy
                  exact populate_cycle_err defaults fuel st pj m st1 hcyc hallunk hrec
              have hpj_ne : pj ≠ i := by
                intro hhji
                subst hhji
                have hcyc : iterUp st 1 pj = some pj := by
                  rw [iterUp_succ_eq st 0 pj, hpidx]
                  rfl
                have hallunk : ∀ m' y, iterUp st m' pj = some y →
                    (st[y]?).bind (fun t => t.order) = none := by
                  intro m' y hy
                  obtain ⟨r, hr, hr2⟩ := iterUp_cycle_reduce st pj 0 hcyc m'
                  rw [hr2] at hy
                  interval_cases r
                  injection hy with hh2
                  subst hh2
                  exact hk0
                exact populate_cycle_err defaults fuel st pj 0 st1 hcyc hallunk hrec
              have hpjlt : pj < st.length := by
                obtain ⟨hl, -, -⟩ := List.findIdx?_eq_some_iff_getElem.mp hidx
                exact hl
              obtain ⟨P, hP⟩ := populate_ok_keyed defaults fuel st pj st1 hrec hpjlt
              have hst' : st' = st1.set i
                  { c with order := some (childKeyStr defaults st1 pid pj) } := by
                rw [← hh]
                unfold childAssign
                rw [hst1i]
              have e2 : Evolves st1 st' := by
                rw [hst']
                exact evolves_set hst1i hcord _
              have hilt1 : i < st1.length := by
                rw [e1.1]
                exact (List.getElem?_eq_some.mp hc).1
              intro k c0 ck pidk pjk pk h0 h0ord hck hckord hckpar hidxk
              have hidfix := findIdx?_evolves e2 pidk
              have hidfix2 := findIdx?_evolves e1 pidk
              by_cases hki : k = i
              · subst hki
                have hck2 : ck = { c with order := some (childKeyStr defaults st1 pid pj) } := by
                  rw [hst'] at hck
                  have hsi : (st1.set k
                      { c with order := some (childKeyStr defaults st1 pid pj) })[k]? =
                      some { c with order := some (childKeyStr defaults st1 pid pj) } := by
                    simp [List.getElem?_set_self', hilt1]
                  rw [hsi] at hck
                  injection hck with hh2
                  exact hh2.symm
                have hcpar : c.parent = some pidk := by
                  rw [hck2] at hckpar
                  exact hckpar
                rw [hpar] at hcpar
                injection hcpar with hh3
                subst hh3
                have hpjk : pj = pjk := by
                  rw [hidfix, hidfix2, hidx] at hidxk
                  exact Option.some_inj.mp hidxk
                subst hpjk
                obtain ⟨seg, hsh, hsne, hsch⟩ := childKeyStr_shape st1 pid pj P hP
                refine ⟨P, seg, ?_, ?_, hsne, hsch⟩
                · rw [hst', List.getElem?_set_ne (fun hh5 => hpj_ne hh5.symm)]
                  exact hP
                · have hpk : pk = childKeyStr defaults st1 pid pj := by
                    rw [hck2] at hckord
                    injection hckord with hh6
                    exact hh6.symm
                  rw [hpk, hsh]
              · have hck1 : st1[k]? = some ck := by
                  rw [hst'] at hck
                  rw [List.getElem?_set_ne (fun hh5 => hki hh5.symm)] at hck
                  exact hck
                have hidx1 : st1.findIdx? (fun it => it.id == pidk) = some pjk := by
                  rw [← hidfix]
                  exact hidxk
                obtain ⟨P2, seg2, hP2, hsh2, hsne2, hsch2⟩ :=
                  inv1 k c0 ck pidk pjk pk h0 h0ord hck1 hckord hckpar hidx1
                by_cases hpjk : pjk = i
                · exfalso
                  rw [hpjk, hst1i] at hP2
                  simp [hcord] at hP2
                · refine ⟨P2, seg2, ?_, hsh2, hsne2, hsch2⟩
                  rw [hst', List.getElem?_set_ne (fun hh5 => hpjk hh5.symm)]
                  exact hP2
      · rw [populate_noop_eq defaults fuel st i (Or.inl (by rw [hc]; simp [hcord]))] at h
        injection h with hh
        subst hh
        exact inv

theorem populateLoop_childShape (st0 : List ThreadSortableItem) (fuel : Nat) :
    ∀ (is : List Nat) (st st' : List ThreadSortableItem),
      populateLoop defaults fuel is st = .ok st' →
      ChildShape st0 st → ChildShape st0 st'
  | [], st, st', h, inv => by
    injection h with hh
    subst hh
    exact inv
  | i :: is, st, st', h, inv => by
    unfold populateLoop at h
    split at h
    · exact Except.noConfusion h
    · rename_i st1 h1
      exact populateLoop_childShape st0 fuel is st1 st' h
        (populate_childShape st0 fuel st i st1 h1 inv)

/-- Ids are pairwise distinct. -/
def UniqueIds (l : List ThreadSortableItem) : Prop := (l.map (fun t => t.id)).Nodup

theorem findIdx?_of_uniqueIds (st : List ThreadSortableItem) (hu : UniqueIds st)
    (pjb : Nat) (b : ThreadSortableItem) (hb : st[pjb]? = some b) :
    st.findIdx? (fun it => it.id == b.id) = some pjb := by
  rw [List.findIdx?_eq_some_iff_getElem]
  have hlt : pjb < st.length := (List.getElem?_eq_some.mp hb).1
  have hbget : st[pjb] = b := by
    rw [List.getElem?_eq_getElem hlt] at hb
    exact Option.some_inj.mp hb
  refine ⟨hlt, ?_, ?_⟩
  · rw [hbget]
    simp
  intro j hj
  simp only [Bool.not_eq_true, beq_eq_false_iff_ne, ne_eq]
  intro hcontra
  have hjlt : j < st.length := Nat.lt_trans hj hlt
  have h1 : (st.map (fun t => t.id))[j]? = some b.id := by
    rw [List.getElem?_map, List.getElem?_eq_getElem hjlt]
    simp [hcontra]
  have h2 : (st.map (fun t => t.id))[pjb]? = some b.id := by
    rw [List.getElem?_map, hb]
    rfl
  have hjl2 : j < (st.map (fun t => t.id)).length := by
    rw [List.length_map]
    exact hjlt
  have := List.getElem?_inj hjl2 hu (h1.trans h2.symm)
  omega

theorem uniqueIds_mem_eq (st : List ThreadSortableItem) (hu : UniqueIds st)
    (x y : ThreadSortableItem) (hx : x ∈ st) (hy : y ∈ st) (hid : x.id = y.id) : x = y := by
  obtain ⟨i, hi⟩ := List.getElem?_of_mem hx
  obtain ⟨j, hj⟩ := List.getElem?_of_mem hy
  have hilt : i < st.length := (List.getElem?_eq_some.mp hi).1
  have h1 : (st.map (fun t => t.id))[i]? = some x.id := by
    rw [List.getElem?_map, hi]
    rfl
  have h2 : (st.map (fun t => t.id))[j]? = some x.id := by
    rw [List.getElem?_map, hj, hid]
    rfl
  have hil2 : i < (st.map (fun t => t.id)).length := by
    rw [List.length_map]
    exact hilt
  have hij := List.getElem?_inj hil2 hu (h1.trans h2.symm)
  subst hij
  rw [hi] at hj
  exact Option.some_inj.mp hj

/-- C4 (amended): after a successful `sortThread` call on a collection with
unique ids, every item that entered the call **without a key** and whose
`parent` reference resolves to an item of the collection satisfies the
ancestor-prefix invariant: the parent's key with its marker stripped,
followed by the delimiter, is a proper prefix of the item's key with its
marker stripped (split exactly at a delimiter boundary), and the item's
full key strictly exceeds the parent's full key under string comparison. -/
theorem ancestor_key_shape (items out : List ThreadSortableItem)
    (hu : UniqueIds items) (h : sortThread items defaults = .ok out) :
    ∀ a ∈ out, ∀ b ∈ out, ∀ pid : String,
      (∃ c0 ∈ items, c0.id = a.id ∧ c0.order = none) →
      a.parent = some pid → b.id = pid →
      ∃ (K P seg : String), a.order = some K ∧ b.order = some P ∧
        (stripEorStr defaults K).data =
          (stripEorStr defaults P).data ++ '/' :: seg.data ∧
        seg.data ≠ [] ∧ strCmpInt P K = -1 := by
  obtain ⟨st, hst, hout, e, hperm⟩ := sortThread_ok_spec items out defaults h
  have hust : UniqueIds st := by
    unfold UniqueIds
    rw [evolves_map_id e]
    exact hu
  intro a ha b hb pid hex hpar hbid
  obtain ⟨c0, hc0mem, hc0id, hc0ord⟩ := hex
  have hast : a ∈ st := hperm.mem_iff.mp ha
  have hbst : b ∈ st := hperm.mem_iff.mp hb
  obtain ⟨k, hk⟩ := List.getElem?_of_mem hast
  obtain ⟨pjb, hpjb⟩ := List.getElem?_of_mem hbst
  obtain ⟨c0', hc0', hida, -, -⟩ := evolves_rev e k a hk
  have hc0'mem : c0' ∈ items := List.getElem?_mem hc0'
  have hc0eq : c0' = c0 :=
    uniqueIds_mem_eq items hu c0' c0 hc0'mem hc0mem (hida ▸ hc0id.symm)
  obtain ⟨K, hK⟩ := sortThread_ok_all_keyed items out defaults h a ha
  have hidx : st.findIdx? (fun it => it.id == pid) = some pjb := by
    have := findIdx?_of_uniqueIds st hust pjb b hpjb
    rw [hbid] at this
    exact this
  have hshape := populateLoop_childShape items (items.length + 1)
    (List.range items.length) items st hst (childShape_init items)
  obtain ⟨P, seg, hP, hKsh, hsegne, hsegch⟩ :=
    hshape k c0' a pid pjb K hc0' (hc0eq ▸ hc0ord) hk hK hpar hidx
  have hbP : b.order = some P := by
    rw [hpjb] at hP
    simpa using hP
  refine ⟨K, P, seg, hK, hbP, ?_, hsegne, ?_⟩
  · rw [hKsh, stripEorStr_append_dot]
    rw [String.data_append, String.data_append]
    simp
  · rw [hKsh]
    exact parent_lt_child_key P seg hsegne

/-- C4 counterexample: with pre-existing keys the claim fails.  Item `"b"`
has the resolvable parent `"a"`, both stay keyed as supplied (`"b."` and
`"z."`), yet the parent's stripped key `"z"` plus delimiter is no prefix of
the child's stripped key `"b"` and the child's full key compares **below**
the parent's. -/
theorem ancestor_key_shape_counterexample :
    sortThread [⟨"a", none, some "z."⟩, ⟨"b", some "a", some "b."⟩] defaults =
        .ok [⟨"b", some "a", some "b."⟩, ⟨"a", none, some "z."⟩] ∧
      (∀ t : List Char,
        (stripEorStr defaults "b.").data ≠ (stripEorStr defaults "z.").data ++ '/' :: t) ∧
      strCmpInt "z." "b." = 1 := by
  refine ⟨rfl, ?_, rfl⟩
  intro t h
  have h2 : (['b'] : List Char) = 'z' :: '/' :: t := h
  injection h2 with h3 h4
  exact absurd h3 (by decide)

/-- Witness for C4 at a concrete two-element thread. -/
theorem ancestor_key_shape_witness :
    ∃ (K P seg : String), (⟨"c", some "p", some "00/00."⟩ : ThreadSortableItem).order = some K ∧
      (⟨"p", none, some "00."⟩ : ThreadSortableItem).order = some P ∧
      (stripEorStr defaults K).data = (stripEorStr defaults P).data ++ '/' :: seg.data ∧
      seg.data ≠ [] ∧ strCmpInt P K = -1 :=
  ancestor_key_shape [⟨"p", none, none⟩, ⟨"c", some "p", none⟩]
    [⟨"p", none, some "00."⟩, ⟨"c", some "p", some "00/00."⟩]
    (by unfold UniqueIds; decide) rfl
    ⟨"c", some "p", some "00/00."⟩ (by decide)
    ⟨"p", none, some "00."⟩ (by decide) "p"
    ⟨⟨"c", some "p", none⟩, by decide, rfl, rfl⟩ rfl rfl

/-! ## C7: the 1296-sibling rollover misorders keys -/

theorem toB36Go_succ (fuel n : Nat) :
    toB36Go (fuel + 1) n =
      if n < 36 then [digit36 n] else toB36Go fuel (n / 36) ++ [digit36 (n % 36)] := rfl

theorem toB36Go_of_lt (fuel n : Nat) (hf : 1 ≤ fuel) (hn : n < 36) :
    toB36Go fuel n = [digit36 n] := by
  cases fuel with
  | zero => omega
  | succ f => rw [toB36Go_succ, if_pos hn]

theorem padStart2_one (c : Char) : padStart2 (String.mk [c]) = String.mk ['0', c] := rfl

theorem padStart2_two (c1 c2 : Char) :
    padStart2 (String.mk [c1, c2]) = String.mk [c1, c2] := rfl

theorem digit36_le_z : ∀ v, v < 36 → digit36 v ≤ 'z' := by decide

theorem render2_two_chars (i : Nat) (h : i < 1296) :
    ∃ c1 c2, padStart2 (String.mk (toB36 i)) = String.mk [c1, c2] ∧ c1 ≤ 'z' ∧ c2 ≤ 'z' := by
  by_cases h36 : i < 36
  · have htb : toB36 i = [digit36 i] := by
      show toB36Go (i + 1) i = _
      rw [toB36Go_succ, if_pos h36]
    rw [htb, padStart2_one]
    exact ⟨'0', digit36 i, rfl, by decide, digit36_le_z i h36⟩
  · have htb : toB36 i = [digit36 (i / 36), digit36 (i % 36)] := by
      show toB36Go (i + 1) i = _
      rw [toB36Go_succ, if_neg h36, toB36Go_of_lt i (i / 36) (by omega) (by omega)]
      rfl
    rw [htb, padStart2_two]
    exact ⟨digit36 (i / 36), digit36 (i % 36), rfl,
      digit36_le_z _ (by omega), digit36_le_z _ (Nat.mod_lt i (by omega))⟩

theorem listCmp_cons_cons (a b : Char) (as bs : List Char) :
    listCmp (a :: as) (b :: bs) =
      if a < b then -1 else if b < a then 1 else listCmp as bs := rfl

theorem le_zz (c1 c2 : Char) (h1 : c1 ≤ 'z') (h2 : c2 ≤ 'z') :
    listCmp [c1, c2, '.'] ['z', 'z', '.'] ≤ 0 := by
  rcases Decidable.lt_or_eq_of_le h1 with h | h
  · rw [listCmp_cons_cons, if_pos h]
    omega
  · subst h
    rw [listCmp_cons_cons, if_neg (lt_irrefl 'z'), if_neg (lt_irrefl 'z')]
    rcases Decidable.lt_or_eq_of_le h2 with h | h
    · rw [listCmp_cons_cons, if_pos h]
      omega
    · subst h
      rw [listCmp_cons_cons, if_neg (lt_irrefl 'z'), if_neg (lt_irrefl 'z')]
      rw [listCmp_self]

/-- 1296 roots pre-keyed `"00."` … `"zz."`, plus one unkeyed root. -/
def bigKeyed : List ThreadSortableItem :=
  (List.range 1296).map (fun i =>
    ⟨String.mk (toB36 i), none, some (padStart2 (String.mk (toB36 i)) ++ ".")⟩)

def bigRootsInput : List ThreadSortableItem := bigKeyed ++ [⟨"x", none, none⟩]

theorem bigKeyed_length : bigKeyed.length = 1296 := by
  unfold bigKeyed
  simp

theorem bigRootsInput_length : bigRootsInput.length = 1297 := by
  unfold bigRootsInput
  simp [bigKeyed_length]

theorem getMaxThread_big : getMaxThread bigRootsInput = some "zz." := by
  apply getMaxThread_eq_some
  · refine ⟨⟨String.mk (toB36 1295), none,
      some (padStart2 (String.mk (toB36 1295)) ++ ".")⟩, ?_, by decide, by decide⟩
    unfold bigRootsInput bigKeyed
    exact List.mem_append.mpr (Or.inl (List.mem_map.mpr
      ⟨1295, List.mem_range.mpr (by decide), rfl⟩))
  · intro it hit s hs hsne
    rcases List.mem_append.mp hit with h1 | h1
    · obtain ⟨i, hi, hmapped⟩ := List.mem_map.mp h1
      have hi' : i < 1296 := List.mem_range.mp hi
      have hso : it.order = some (padStart2 (String.mk (toB36 i)) ++ ".") := by
        rw [← hmapped]
      rw [hs] at hso
      injection hso with hh
      obtain ⟨c1, c2, hr, hc1, hc2⟩ := render2_two_chars i hi'
      have hsd : s.data = [c1, c2, '.'] := by
        rw [hh, hr]
        rw [String.data_append]
        rfl
      rw [hsd]
      show listCmp [c1, c2, '.'] ['z', 'z', '.'] ≤ 0
      exact le_zz c1 c2 hc1 hc2
    · have hx : it = ⟨"x", none, none⟩ := by simpa using h1
      rw [hx] at hs
      exact Option.noConfusion hs

theorem rootKeyStr_big : rootKeyStr defaults bigRootsInput = "100." := by
  unfold rootKeyStr
  rw [getMaxThread_big]
  rfl

theorem set_append_len (l : List α) (a b : α) : (l ++ [a]).set l.length b = l ++ [b] := by
  induction l with
  | nil => rfl
  | cons x xs ih =>
    show x :: (xs ++ [a]).set xs.length b = x :: (xs ++ [b])
    rw [ih]

theorem populateLoop_cons (opt : ThreadSortOptions) (fuel : Nat) (i : Nat) (is : List Nat)
    (st : List ThreadSortableItem) :
    populateLoop opt fuel (i :: is) st =
      match populateThreadForItem opt fuel st i with
      | .error e => .error e
      | .ok st1 => populateLoop opt fuel is st1 := rfl

theorem populateLoop_append (opt : ThreadSortOptions) (fuel : Nat) :
    ∀ (is1 is2 : List Nat) (st : List ThreadSortableItem),
      populateLoop opt fuel (is1 ++ is2) st =
        match populateLoop opt fuel is1 st with
        | .error e => .error e
        | .ok st1 => populateLoop opt fuel is2 st1
  | [], is2, st => rfl
  | i :: is1, is2, st => by
    show populateLoop opt fuel (i :: (is1 ++ is2)) st = _
    rw [populateLoop_cons, populateLoop_cons]
    rcases hp : populateThreadForItem opt fuel st i with e | st1
    · rfl
    · exact populateLoop_append opt fuel is1 is2 st1

theorem populateLoop_noop_on (opt : ThreadSortOptions) (fuel : Nat) :
    ∀ (is : List Nat) (st : List ThreadSortableItem),
      (∀ i ∈ is, (st[i]?).bind (fun t => t.order) ≠ none ∨ st[i]? = none) →
      populateLoop opt (fuel + 1) is st = .ok st
  | [], st, h => rfl
  | i :: is, st, h => by
    rw [populateLoop_cons, populate_noop_eq opt fuel st i (h i (List.mem_cons_self i is))]
    exact populateLoop_noop_on opt fuel is st (fun j hj => h j (List.mem_cons_of_mem i hj))

theorem bigRootsInput_last : bigRootsInput[1296]? = some ⟨"x", none, none⟩ := by
  unfold bigRootsInput
  rw [List.getElem?_append_right (by rw [bigKeyed_length])]
  rw [bigKeyed_length]
  rfl

theorem populate_big (fuel : Nat) :
    populateThreadForItem defaults (fuel + 1) bigRootsInput 1296 =
      .ok (bigKeyed ++ [⟨"x", none, some "100."⟩]) := by
  rw [populate_root_eq defaults fuel bigRootsInput 1296 ⟨"x", none, none⟩
    bigRootsInput_last rfl (Or.inl rfl)]
  rw [rootAssign_eq_set, rootKeyStr_big]
  rw [show bigRootsInput = bigKeyed ++ [(⟨"x", none, none⟩ : ThreadSortableItem)] from rfl]
  rw [show (1296 : Nat) = bigKeyed.length from bigKeyed_length.symm]
  rw [set_append_len]

theorem loop_big :
    populateLoop defaults (1297 + 1) (List.range 1297) bigRootsInput =
      .ok (bigKeyed ++ [⟨"x", none, some "100."⟩]) := by
  rw [List.range_succ 1296]
  rw [populateLoop_append]
  rw [populateLoop_noop_on defaults 1297 (List.range 1296) bigRootsInput ?_]
  · show populateLoop defaults (1297 + 1) [1296] bigRootsInput = _
    rw [populateLoop_cons, populate_big 1297]
    rfl
  · intro i hi
    left
    have hi' : i < 1296 := List.mem_range.mp hi
    unfold bigRootsInput
    rw [List.getElem?_append, if_pos (by rw [bigKeyed_length]; exact hi')]
    unfold bigKeyed
    rw [List.getElem?_map]
    rw [List.getElem?_range hi']
    simp

theorem sortThread_eq_of_loop (items : List ThreadSortableItem) (opt : ThreadSortOptions)
    (st : List ThreadSortableItem)
    (h : populateLoop opt (items.length + 1) (List.range items.length) items = .ok st) :
    sortThread items opt = .ok (sortCmp compareThread st) := by
  unfold sortThread
  rw [h]

theorem sortThread_big :
    ∃ out, sortThread bigRootsInput defaults = .ok out ∧
      List.Perm out (bigKeyed ++ [⟨"x", none, some "100."⟩]) := by
  refine ⟨sortCmp compareThread (bigKeyed ++ [⟨"x", none, some "100."⟩]), ?_, ?_⟩
  · exact sortThread_eq_of_loop bigRootsInput defaults _
      (by rw [bigRootsInput_length]; exact loop_big)
  · exact sortCmp_perm compareThread _

/-- C7: on an input where 1297 roots end up keyed, the roots with assigned
indices 37 and 1296 carry keys `"11."` and `"100."`, and the key of the
numerically larger index 1296 compares strictly **below** the key of index
37 under string comparison, so the final sort misorders them. -/
theorem rollover_misorders_keys :
    ∃ out, sortThread bigRootsInput defaults = .ok out ∧
      out.length = 1297 ∧
      (∀ it ∈ out, ∃ w, it.order = some w) ∧
      ∃ a ∈ out, ∃ b ∈ out,
        a.order = some "11." ∧ b.order = some "100." ∧
        parse36 (stripEorStr defaults "11.") = some 37 ∧
        parse36 (stripEorStr defaults "100.") = some 1296 ∧
        37 < 1296 ∧ 1296 ≤ 1296 ∧
        strCmpInt "100." "11." = -1 := by
  obtain ⟨out, hout, hperm⟩ := sortThread_big
  refine ⟨out, hout, ?_, sortThread_ok_all_keyed _ out defaults hout, ?_⟩
  · rw [hperm.length_eq]
    simp [bigKeyed_length]
  · refine ⟨⟨String.mk (toB36 37), none, some (padStart2 (String.mk (toB36 37)) ++ ".")⟩,
      ?_, ⟨"x", none, some "100."⟩, ?_, by decide, rfl, by decide, by decide, by decide,
      le_refl 1296, by decide⟩
    · apply hperm.mem_iff.mpr
      exact List.mem_append.mpr (Or.inl (by
        unfold bigKeyed
        exact List.mem_map.mpr ⟨37, List.mem_range.mpr (by decide), rfl⟩))
    · apply hperm.mem_iff.mpr
      exact List.mem_append.mpr (Or.inr (by simp))


/-! ## C3: sibling monotonicity -/

/-- Four items: `x` (child of `b`) precedes the siblings `a` and `b`
(children of `p`); populating `x` recursively keys `b` before the loop
reaches `a`. -/
def sibInput : List ThreadSortableItem :=
  [⟨"x", some "b", none⟩, ⟨"a", some "p", none⟩, ⟨"b", some "p", none⟩, ⟨"p", none, none⟩]

/-- C3 counterexample: in `sibInput` the items `a` (input index 1) and `b`
(input index 2) share the parent reference `"p"`, neither carries a key on
input, and both are keyed in the same `sortThread` call; `a` precedes `b`
in the input array, yet `a` receives the key `"00/01."` and `b` the key
`"00/00."`, and `strCmpInt "00/01." "00/00." = 1`, so `key(a) < key(b)`
fails: recursive ancestor resolution keyed the later sibling `b` first. -/
theorem input_order_siblings_counterexample :
    sibInput[1]? = some ⟨"a", some "p", none⟩ ∧
    sibInput[2]? = some ⟨"b", some "p", none⟩ ∧
    sortThread sibInput defaults = .ok [⟨"p", none, some "00."⟩,
      ⟨"b", some "p", some "00/00."⟩, ⟨"x", some "b", some "00/00/00."⟩,
      ⟨"a", some "p", some "00/01."⟩] ∧
    strCmpInt "00/01." "00/00." = 1 := ⟨rfl, rfl, rfl, by decide⟩

/-- A freshly rendered sibling segment: base-36, zero-padded to two
characters, terminated by the default end-of-record marker. -/
def seg2 (v : Nat) : String := padStart2 (String.mk (toB36 v)) ++ "."

theorem digit36_mono : ∀ b, b < 36 → ∀ a, a < b → digit36 a < digit36 b := by decide

theorem digitVal36_digit36 : ∀ d, d < 36 → digitVal36 (digit36 d) = some d := by decide

theorem render2_eq (v : Nat) (h : v < 1296) :
    padStart2 (String.mk (toB36 v)) = String.mk [digit36 (v / 36), digit36 (v % 36)] := by
  by_cases h36 : v < 36
  · rw [show toB36 v = [digit36 v] from toB36Go_of_lt (v + 1) v (by omega) h36]
    rw [padStart2_one]
    rw [Nat.div_eq_of_lt h36, Nat.mod_eq_of_lt h36]
    rfl
  · rw [show toB36 v = [digit36 (v / 36), digit36 (v % 36)] from by
      show toB36Go (v + 1) v = _
      rw [toB36Go_succ, if_neg h36, toB36Go_of_lt v (v / 36) (by omega) (by omega)]
      rfl]
    rw [padStart2_two]

theorem seg2_data (v : Nat) (h : v < 1296) :
    (seg2 v).data = [digit36 (v / 36), digit36 (v % 36), '.'] := by
  show (padStart2 (String.mk (toB36 v)) ++ ".").data = _
  rw [render2_eq v h, String.data_append]
  rfl

theorem seg3_lt (a b : Nat) (hab : a < b) (hb : b < 1296) :
    listCmp [digit36 (a / 36), digit36 (a % 36), '.']
      [digit36 (b / 36), digit36 (b % 36), '.'] = -1 := by
  by_cases h1 : a / 36 < b / 36
  · rw [listCmp_cons_cons, if_pos (digit36_mono (b / 36) (by omega) (a / 36) h1)]
  · have hdiv : a / 36 = b / 36 := by omega
    have hmod : a % 36 < b % 36 := by omega
    rw [hdiv, listCmp_cons_cons, if_neg (lt_irrefl _), if_neg (lt_irrefl _)]
    rw [listCmp_cons_cons, if_pos (digit36_mono (b % 36) (Nat.mod_lt b (by omega)) (a % 36) hmod)]

theorem seg3_le_reflect (a b : Nat) (ha : a < 1296) (hb : b < 1296)
    (h : listCmp [digit36 (a / 36), digit36 (a % 36), '.']
      [digit36 (b / 36), digit36 (b % 36), '.'] ≤ 0) : a ≤ b := by
  by_contra hgt
  push_neg at hgt
  have hlt := seg3_lt b a hgt ha
  rw [listCmp_neg] at hlt
  omega

theorem key_seg2_lt (A : String) (a b : Nat) (hab : a < b) (hb : b < 1296) :
    strCmpInt (A ++ seg2 a) (A ++ seg2 b) = -1 := by
  show listCmp (A ++ seg2 a).data (A ++ seg2 b).data = -1
  rw [String.data_append, String.data_append, listCmp_append]
  rw [seg2_data a (by omega), seg2_data b hb]
  exact seg3_lt a b hab hb

theorem key_seg2_le_reflect (A : String) (a b : Nat) (ha : a < 1296) (hb : b < 1296)
    (h : strCmpInt (A ++ seg2 a) (A ++ seg2 b) ≤ 0) : a ≤ b := by
  apply seg3_le_reflect a b ha hb
  have h2 : listCmp (A ++ seg2 a).data (A ++ seg2 b).data ≤ 0 := h
  rw [String.data_append, String.data_append, listCmp_append] at h2
  rw [seg2_data a ha, seg2_data b hb] at h2
  exact h2

theorem parse36Core_cons (c : Char) (cs : List Char) (acc : Nat) :
    parse36Core (c :: cs) acc = match digitVal36 c with
      | some v => parse36Core cs (acc * 36 + v)
      | none => acc := rfl

theorem parse36_digit2 (a b : Nat) (ha : a < 36) (hb : b < 36) :
    parse36 (String.mk [digit36 a, digit36 b]) = some (36 * a + b) := by
  have h1 := digitVal36_digit36 a ha
  have h2 := digitVal36_digit36 b hb
  unfold parse36
  show (match digitVal36 (digit36 a) with
      | none => none
      | some _ => some (parse36Core [digit36 a, digit36 b] 0)) = some (36 * a + b)
  rw [h1]
  show some (parse36Core [digit36 a, digit36 b] 0) = some (36 * a + b)
  rw [parse36Core_cons, h1]
  show some (parse36Core [digit36 b] (0 * 36 + a)) = some (36 * a + b)
  rw [parse36Core_cons, h2]
  show some ((0 * 36 + a) * 36 + b) = some (36 * a + b)
  congr 1
  omega

theorem stripEor_some (opt : ThreadSortOptions) (s : String) :
    stripEor opt (some s) = some (stripEorStr opt s) := rfl

theorem stripEorStr_last_ne_dot (X : String) (l : List Char) (c : Char)
    (hd : X.data = l ++ [c]) (hc : c ≠ '.') : stripEorStr defaults X = X := by
  unfold stripEorStr
  rw [if_neg]
  rintro ⟨-, h2⟩
  unfold jsEndsWith at h2
  simp only [defaults, decide_eq_true_eq] at h2
  have hlast : X.data.drop (X.data.length - 1) = ['.'] := by
    have := h2.2
    simpa [defaults] using this
  rw [hd] at hlast
  have hlen : (l ++ [c]).length - 1 = l.length := by simp
  rw [hlen] at hlast
  rw [List.drop_left' rfl] at hlast
  injection hlast with h1 h2
  exact hc h1

theorem strip_key_seg2 (A : String) (v : Nat) :
    stripEorStr defaults (A ++ seg2 v) = A ++ padStart2 (String.mk (toB36 v)) := by
  have h : A ++ seg2 v = (A ++ padStart2 (String.mk (toB36 v))) ++ "." := by
    rw [String.append_assoc]
    rfl
  rw [h, stripEorStr_append_dot]

theorem strip_no_dot_idem (A : String) (v : Nat) (h : v < 1296) :
    stripEorStr defaults (A ++ padStart2 (String.mk (toB36 v))) =
      A ++ padStart2 (String.mk (toB36 v)) := by
  apply stripEorStr_last_ne_dot _ (A.data ++ [digit36 (v / 36)]) (digit36 (v % 36))
  · rw [String.data_append, render2_eq v h]
    show A.data ++ [digit36 (v / 36), digit36 (v % 36)] = _
    rw [show [digit36 (v / 36), digit36 (v % 36)] =
      [digit36 (v / 36)] ++ [digit36 (v % 36)] from rfl]
    rw [List.append_assoc]
  · exact (digit36_ne_dot_slash _ (Nat.mod_lt v (by omega))).1

theorem pad_no_slash (v : Nat) (h : v < 1296) :
    ∀ x ∈ (padStart2 (String.mk (toB36 v))).data, x ≠ '/' := by
  intro x hx
  rw [render2_eq v h] at hx
  have hx2 : x ∈ [digit36 (v / 36), digit36 (v % 36)] := hx
  simp only [List.mem_cons, List.not_mem_nil, or_false] at hx2
  rcases hx2 with rfl | rfl
  · exact (digit36_ne_dot_slash _ (by omega)).2
  · exact (digit36_ne_dot_slash _ (Nat.mod_lt v (by omega))).2

theorem dropWhile_head_false {α : Type} (p : α → Bool) :
    ∀ (l : List α) (d : α) (ds : List α), l.dropWhile p = d :: ds → p d = false
  | [], d, ds, h => List.noConfusion h
  | x :: xs, d, ds, h => by
    rw [List.dropWhile_cons] at h
    by_cases hx : p x
    · rw [if_pos hx] at h
      exact dropWhile_head_false p xs d ds h
    · rw [if_neg hx] at h
      injection h with h1 h2
      rw [← h1]
      simpa using hx

theorem splitGo_last_seg (c : Char) :
    ∀ (fuel : Nat) (l1 l2 : List Char), (∀ x ∈ l2, x ≠ c) → l1.length < fuel →
      ∃ parts, splitGo [c] fuel (l1 ++ c :: l2) = parts ++ [l2]
  | 0, l1, l2, h2, hf => absurd hf (by omega)
  | fuel + 1, l1, l2, h2, hf => by
    by_cases hl1 : ∀ x ∈ l1, x ≠ c
    · refine ⟨[l1], ?_⟩
      unfold splitGo
      rw [findSub_single_at c l1 l2 hl1]
      have htake : (l1 ++ c :: l2).take l1.length = l1 := List.take_left ..
      have hdrop : (l1 ++ c :: l2).drop (l1.length + 1) = l2 := by
        have := @List.drop_append _ l1 (c :: l2) 1
        simpa using this
      simp only [List.length_singleton, htake, hdrop]
      rw [splitGo_nosep c fuel l2 h2]
      rfl
    · obtain ⟨T, hT⟩ : ∃ T, l1.takeWhile (fun x => x ≠ c) = T := ⟨_, rfl⟩
      have hdw : l1.dropWhile (fun x => x ≠ c) ≠ [] := by
        intro hnil
        rw [List.dropWhile_eq_nil_iff] at hnil
        exact hl1 (fun x hx => by simpa using hnil x hx)
      obtain ⟨d0, ds, hds⟩ : ∃ d0 ds, l1.dropWhile (fun x => x ≠ c) = d0 :: ds := by
        rcases hh : l1.dropWhile (fun x => x ≠ c) with - | ⟨d0, ds⟩
        · exact absurd hh hdw
        · exact ⟨d0, ds, rfl⟩
      have hd0 : d0 = c := by
        have hfalse := dropWhile_head_false (fun x => x ≠ c) l1 d0 ds hds
        simpa using hfalse
      have hl1eq : l1 = T ++ c :: ds := by
        conv_lhs => rw [← List.takeWhile_append_dropWhile (fun x => decide (x ≠ c)) l1]
        rw [hds, hd0, hT]
      have hp : ∀ x ∈ T, x ≠ c := fun x hx => by
        rw [← hT] at hx
        simpa using List.mem_takeWhile_imp hx
      have hlen : l1.length = T.length + 1 + ds.length := by
        conv_lhs => rw [hl1eq]
        simp only [List.length_append, List.length_cons]
        omega
      obtain ⟨parts0, hps⟩ := splitGo_last_seg c fuel ds l2 h2 (by omega)
      refine ⟨T :: parts0, ?_⟩
      rw [show l1 ++ c :: l2 = T ++ c :: (ds ++ c :: l2) from by
        rw [hl1eq, List.append_assoc]
        rfl]
      unfold splitGo
      rw [findSub_single_at c T _ hp]
      have htake : (T ++ c :: (ds ++ c :: l2)).take T.length = T := List.take_left ..
      have hdrop : (T ++ c :: (ds ++ c :: l2)).drop (T.length + 1) = ds ++ c :: l2 := by
        have := @List.drop_append _ T (c :: (ds ++ c :: l2)) 1
        simpa using this
      simp only [List.length_singleton, htake, hdrop]
      rw [hps]
      rfl

theorem strSplit_last_seg (A s : String) (h : ∀ x ∈ s.data, x ≠ '/') :
    ∃ parts : List String, strSplit (A ++ "/" ++ s) "/" = parts ++ [s] := by
  unfold strSplit
  rw [if_neg (by decide)]
  have hdata : (A ++ "/" ++ s).data = A.data ++ '/' :: s.data := by
    rw [String.data_append, String.data_append, List.append_assoc]
    rfl
  rw [hdata]
  obtain ⟨parts0, hps⟩ := splitGo_last_seg '/' ((A.data ++ '/' :: s.data).length + 1)
    A.data s.data h (by simp; omega)
  rw [show (("/" : String)).data = ['/'] from rfl, hps]
  refine ⟨parts0.map String.mk, ?_⟩
  rw [List.map_append]
  rfl

theorem getD_concat_last (parts : List String) (s : String) :
    (parts ++ [s]).getD ((parts ++ [s]).length - 1) "" = s := by
  have hlen : (parts ++ [s]).length - 1 = parts.length := by simp
  rw [hlen, List.getD_eq_getElem?_getD, List.getElem?_concat_length]
  rfl

theorem childKeyStr_scan_some (st : List ThreadSortableItem) (pid : String) (pj : Nat)
    (m0 : String) (hscan : stripEor defaults (getMaxThreadPerThread st pid) = some m0) :
    childKeyStr defaults st pid pj =
      ((stripEor defaults ((st[pj]?).bind (fun t => t.order))).getD "undefined" ++ "/")
        ++ padStart2 (jnumToStr36 (jnumSucc
          ((parse36 ((strSplit (stripEorStr defaults m0) "/").getD
            ((strSplit (stripEorStr defaults m0) "/").length - 1) "")).map Int.ofNat)))
        ++ "." := by
  unfold childKeyStr
  rw [hscan]
  rfl

theorem childKeyStr_of_shape (st : List ThreadSortableItem) (pid P : String) (pj : Nat)
    (p : ThreadSortableItem) (hpj : st[pj]? = some p) (hpord : p.order = some P)
    (vM : Nat) (hvM : vM < 1296)
    (hscan : getMaxThreadPerThread st pid = some (stripEorStr defaults P ++ "/" ++ seg2 vM)) :
    childKeyStr defaults st pid pj = stripEorStr defaults P ++ "/" ++ seg2 (vM + 1) := by
  have hm0 : stripEor defaults (getMaxThreadPerThread st pid) =
      some (stripEorStr defaults P ++ "/" ++ padStart2 (String.mk (toB36 vM))) := by
    rw [hscan, stripEor_some]
    rw [show stripEorStr defaults P ++ "/" ++ seg2 vM =
      (stripEorStr defaults P ++ "/") ++ seg2 vM from rfl]
    rw [strip_key_seg2]
  rw [childKeyStr_scan_some st pid pj _ hm0]
  rw [hpj, Option.some_bind, hpord, stripEor_some, Option.getD_some]
  rw [strip_no_dot_idem _ vM hvM]
  obtain ⟨parts0, hsp⟩ := strSplit_last_seg (stripEorStr defaults P)
    (padStart2 (String.mk (toB36 vM))) (pad_no_slash vM hvM)
  rw [hsp, getD_concat_last]
  rw [render2_eq vM hvM,
    parse36_digit2 (vM / 36) (vM % 36) (by omega) (Nat.mod_lt vM (by omega))]
  rw [show 36 * (vM / 36) + vM % 36 = vM from Nat.div_add_mod vM 36]
  rw [Option.map_some']
  show (stripEorStr defaults P ++ "/") ++ padStart2 (jnumToStr36 (some (Int.ofNat vM + 1)))
      ++ "." = _
  rw [show jnumToStr36 (some (Int.ofNat vM + 1)) = String.mk (toB36 (vM + 1)) from by
    show intToB36 (Int.ofNat vM + 1) = _
    unfold intToB36
    rw [if_neg (by simp only [Int.ofNat_eq_natCast]; omega),
      show (Int.ofNat vM + 1).toNat = vM + 1 from by
        simp only [Int.ofNat_eq_natCast]; omega]]
  rw [String.append_assoc]
  rfl

/-- C3 (amended): the true monotonicity is keyed to assignment order, not
input order.  When `populateThreadForItem` assigns a key to an unkeyed item
whose parent reference resolves to an already-keyed item, and every item
sharing the same parent reference that currently holds a truthy key holds
one of the well-formed shape `strippedParentKey ++ "/" ++ seg2 v` with
`v ≤ 1294`, the newly assigned key strictly exceeds every one of those
existing sibling keys under string comparison.  (By the counterexample,
this fails for input order: recursion can key a later sibling first.) -/
theorem sibling_key_exceeds_assigned_siblings (fuel : Nat)
    (st : List ThreadSortableItem) (i : Nat) (c : ThreadSortableItem)
    (pid P : String) (pj : Nat) (p : ThreadSortableItem)
    (hc : st[i]? = some c) (hcord : c.order = none) (hcp : c.parent = some pid)
    (hidx : st.findIdx? (fun it => it.id == pid) = some pj)
    (hpj : st[pj]? = some p) (hpord : p.order = some P)
    (shape : ∀ it ∈ st, it.parent = some pid → ∀ w, it.order = some w → w ≠ "" →
      ∃ v, v ≤ 1294 ∧ w = stripEorStr defaults P ++ "/" ++ seg2 v) :
    ∃ K, populateThreadForItem defaults (fuel + 1 + 1) st i =
        .ok (st.set i { c with order := some K }) ∧
      ∀ it ∈ st, it.parent = some pid → ∀ w, it.order = some w → w ≠ "" →
        strCmpInt w K = -1 := by
  refine ⟨childKeyStr defaults st pid pj, ?_, ?_⟩
  · rw [populate_child_eq defaults (fuel + 1) st i c pid pj hc hcord hcp hidx]
    rw [populate_noop_eq defaults fuel st pj (Or.inl (by simp [hpj, hpord]))]
    show Except.ok (childAssign defaults st i pid pj) = _
    unfold childAssign
    rw [hc]
  · intro it hit hp w hw hwne
    obtain ⟨v, hv, hweq⟩ := shape it hit hp w hw hwne
    rcases hscan0 : getMaxThreadPerThread st pid with - | M
    · exfalso
      rw [getMaxThreadPerThread_none_iff] at hscan0
      have hmem : it ∈ st.filter (fun j => j.parent == some pid && truthyStr j.order) :=
        List.mem_filter.mpr ⟨hit, by simp [hp, hw, truthyStr, hwne]⟩
      rw [hscan0] at hmem
      exact List.not_mem_nil it hmem
    · obtain ⟨⟨g, hg, hgp, hgord, hgne⟩, hmax⟩ :=
        getMaxThreadPerThread_some_spec st pid M hscan0
      obtain ⟨vM, hvM, hMeq⟩ := shape g hg hgp M hgord hgne
      rw [hMeq] at hscan0
      have hK := childKeyStr_of_shape st pid P pj p hpj hpord vM (by omega) hscan0
      rw [hK, hweq]
      have hle : v ≤ vM := by
        have h0 := hmax it hit hp w hw hwne
        rw [hweq, hMeq] at h0
        exact key_seg2_le_reflect (stripEorStr defaults P ++ "/") v vM
          (by omega) (by omega) h0
      exact key_seg2_lt (stripEorStr defaults P ++ "/") v (vM + 1) (by omega) (by omega)

/-- Witness for the amended C3 theorem: parent `"p"` keyed `"00."`, one
sibling already keyed `"00/00."`, the item `"c"` about to be keyed. -/
theorem sibling_key_exceeds_assigned_siblings_witness :
    ∃ K, populateThreadForItem defaults 3
        [⟨"p", none, some "00."⟩, ⟨"a", some "p", some "00/00."⟩, ⟨"c", some "p", none⟩] 2 =
      .ok ([(⟨"p", none, some "00."⟩ : ThreadSortableItem), ⟨"a", some "p", some "00/00."⟩,
        ⟨"c", some "p", none⟩].set 2 { (⟨"c", some "p", none⟩ : ThreadSortableItem) with
          order := some K }) ∧
      ∀ it ∈ [(⟨"p", none, some "00."⟩ : ThreadSortableItem),
          ⟨"a", some "p", some "00/00."⟩, ⟨"c", some "p", none⟩],
        it.parent = some "p" → ∀ w, it.order = some w → w ≠ "" →
          strCmpInt w K = -1 := by
  refine sibling_key_exceeds_assigned_siblings 1 _ 2 ⟨"c", some "p", none⟩ "p" "00." 0
    ⟨"p", none, some "00."⟩ rfl rfl rfl rfl rfl rfl ?_
  intro it hit hp w hw hwne
  simp only [List.mem_cons, List.not_mem_nil, or_false] at hit
  rcases hit with rfl | rfl | rfl
  · exact Option.noConfusion hp
  · refine ⟨0, by omega, ?_⟩
    have hww : w = "00/00." := (Option.some_inj.mp hw).symm
    rw [hww]
    decide
  · exact Option.noConfusion hw


/-! ## C1: preorder of the sorted output -/

/-- C1 counterexample: unique ids and acyclic parent references do not make
the sorted output a preorder.  The collection
`[a (root, pre-keyed "z."), b (parent a, pre-keyed "a.")]` has unique ids
and an acyclic parent chain (`b → a → ∅`), and `b`'s parent reference
resolves; `sortThread` leaves the pre-existing keys untouched and sorts
`"a." < "z."`, so the child `b` lands at index 0 strictly **before** its
parent `a` at index 1 — the parent neither immediately precedes nor
precedes at all the first item of its subtree. -/
theorem preorder_counterexample :
    UniqueIds [⟨"a", none, some "z."⟩, ⟨"b", some "a", some "a."⟩] ∧
    (⟨"a", none, some "z."⟩ : ThreadSortableItem).parent = none ∧
    (⟨"b", some "a", some "a."⟩ : ThreadSortableItem).parent = some "a" ∧
    ([⟨"a", none, some "z."⟩, ⟨"b", some "a", some "a."⟩] :
      List ThreadSortableItem).find? (fun it => it.id == "a") =
        some ⟨"a", none, some "z."⟩ ∧
    sortThread [⟨"a", none, some "z."⟩, ⟨"b", some "a", some "a."⟩] defaults =
      .ok [⟨"b", some "a", some "a."⟩, ⟨"a", none, some "z."⟩] ∧
    ([⟨"b", some "a", some "a."⟩, ⟨"a", none, some "z."⟩] :
      List ThreadSortableItem)[0]? = some ⟨"b", some "a", some "a."⟩ ∧
    ([⟨"b", some "a", some "a."⟩, ⟨"a", none, some "z."⟩] :
      List ThreadSortableItem)[1]? = some ⟨"a", none, some "z."⟩ :=
  ⟨by unfold UniqueIds; decide, rfl, rfl, rfl, rfl, rfl, rfl⟩

/-- Keys assigned during the call compare strictly above the (current)
parent key: the position-free consequence of `ChildShape`. -/
theorem ancestor_key_facts (items out : List ThreadSortableItem)
    (hu : UniqueIds items) (h : sortThread items defaults = .ok out) :
    ∀ a ∈ out, ∀ b ∈ out, ∀ pid : String,
      (∃ c0 ∈ items, c0.id = a.id ∧ c0.order = none) →
      a.parent = some pid → b.id = pid →
      ∃ (K P : String), a.order = some K ∧ b.order = some P ∧ strCmpInt P K = -1 := by
  obtain ⟨st, hst, hout, e, hperm⟩ := sortThread_ok_spec items out defaults h
  have hust : UniqueIds st := by
    unfold UniqueIds
    rw [evolves_map_id e]
    exact hu
  intro a ha b hb pid hex hpar hbid
  obtain ⟨c0, hc0mem, hc0id, hc0ord⟩ := hex
  have hast : a ∈ st := hperm.mem_iff.mp ha
  have hbst : b ∈ st := hperm.mem_iff.mp hb
  obtain ⟨k, hk⟩ := List.getElem?_of_mem hast
  obtain ⟨pjb, hpjb⟩ := List.getElem?_of_mem hbst
  obtain ⟨c0', hc0', hida, -, -⟩ := evolves_rev e k a hk
  have hc0'mem : c0' ∈ items := List.getElem?_mem hc0'
  have hc0eq : c0' = c0 :=
    uniqueIds_mem_eq items hu c0' c0 hc0'mem hc0mem (hida ▸ hc0id.symm)
  obtain ⟨K, hK⟩ := sortThread_ok_all_keyed items out defaults h a ha
  have hidx : st.findIdx? (fun it => it.id == pid) = some pjb := by
    have := findIdx?_of_uniqueIds st hust pjb b hpjb
    rw [hbid] at this
    exact this
  have hshape := populateLoop_childShape items (items.length + 1)
    (List.range items.length) items st hst (childShape_init items)
  obtain ⟨P, seg, hP, hKsh, hsegne, hsegch⟩ :=
    hshape k c0' a pid pjb K hc0' (hc0eq ▸ hc0ord) hk hK hpar hidx
  have hbP : b.order = some P := by
    rw [hpjb] at hP
    simpa using hP
  refine ⟨K, P, hK, hbP, ?_⟩
  rw [hKsh]
  exact parent_lt_child_key P seg hsegne

/-- A `Chain'`-sorted list of keyed items is pairwise sorted on the key
strings (the getD-keyed relation is transitive, unlike `compareThread`). -/
theorem chain'_pairwise_keyed :
    ∀ l : List ThreadSortableItem, (∀ t ∈ l, t.order ≠ none) →
      l.Chain' (fun x y => compareThread x y ≤ 0) →
      l.Pairwise (fun x y =>
        listCmp ((x.order.getD "").data) ((y.order.getD "").data) ≤ 0)
  | [], _, _ => List.Pairwise.nil
  | [x], _, _ => by simp
  | x :: y :: xs, hk, hch => by
    rw [List.chain'_cons] at hch
    have hxy := hch.1
    have ih := chain'_pairwise_keyed (y :: xs)
      (fun t ht => hk t (List.mem_cons_of_mem x ht)) hch.2
    refine List.Pairwise.cons ?_ ih
    intro z hz
    obtain ⟨Kx, hKx⟩ := Option.ne_none_iff_exists'.mp (hk x (List.mem_cons_self ..))
    obtain ⟨Ky, hKy⟩ := Option.ne_none_iff_exists'.mp
      (hk y (List.mem_cons_of_mem x (List.mem_cons_self ..)))
    have hxy2 : listCmp ((x.order.getD "").data) ((y.order.getD "").data) ≤ 0 := by
      rw [compareThread_some x y Kx Ky hKx hKy] at hxy
      rw [hKx, hKy]
      simpa using hxy
    rcases List.mem_cons.mp hz with rfl | hz2
    · exact hxy2
    · exact listCmp_trans_le _ _ _ hxy2 ((List.pairwise_cons.mp ih).1 z hz2)

/-- C1 (amended): the preorder guarantee that survives arbitrary
pre-existing keys is parent-before-child for items keyed during the call:
after a successful `sortThread` on a collection with unique ids, every item
that entered the call without a key and whose parent reference resolves to
an item of the collection appears in the output at an index strictly
**after** the index of its parent.  (Contiguity of subtrees and the
"immediately before" placement fail already for two pre-keyed items, see
the counterexample; sibling-index order fails past the 1296 rollover by
C7.) -/
theorem parent_precedes_child_in_output (items out : List ThreadSortableItem)
    (hu : UniqueIds items) (h : sortThread items defaults = .ok out) :
    ∀ a ∈ out, ∀ b ∈ out, ∀ pid : String,
      (∃ c0 ∈ items, c0.id = a.id ∧ c0.order = none) →
      a.parent = some pid → b.id = pid →
      ∃ jb ja : Nat, out[jb]? = some b ∧ out[ja]? = some a ∧ jb < ja := by
  intro a ha b hb pid hex hpar hbid
  obtain ⟨K, P, hK, hP, hPK⟩ :=
    ancestor_key_facts items out hu h a ha b hb pid hex hpar hbid
  obtain ⟨ja, hja⟩ := List.getElem?_of_mem ha
  obtain ⟨jb, hjb⟩ := List.getElem?_of_mem hb
  refine ⟨jb, ja, hjb, hja, ?_⟩
  obtain ⟨st, hst, hout, e, hperm⟩ := sortThread_ok_spec items out defaults h
  have hch : out.Chain' (fun x y => compareThread x y ≤ 0) := by
    rw [hout]
    exact sortCmp_sorted compareThread compareThread_neg st
  have hkeyed : ∀ t ∈ out, t.order ≠ none := fun t ht => by
    obtain ⟨w, hw⟩ := sortThread_ok_all_keyed items out defaults h t ht
    rw [hw]
    exact fun hh => Option.noConfusion hh
  have hpw := chain'_pairwise_keyed out hkeyed hch
  rcases Nat.lt_trichotomy jb ja with hlt | heq | hgt
  · exact hlt
  · exfalso
    rw [heq, hja] at hjb
    have hab : a = b := Option.some_inj.mp hjb
    rw [← hab, hK] at hP
    have hKP : K = P := Option.some_inj.mp hP
    have h0 : listCmp P.data K.data = -1 := hPK
    rw [hKP] at h0
    have h1 := listCmp_self P.data
    omega
  · exfalso
    have hjalt : ja < out.length := (List.getElem?_eq_some.mp hja).1
    have hjblt : jb < out.length := (List.getElem?_eq_some.mp hjb).1
    have hR := List.pairwise_iff_getElem.mp hpw ja jb hjalt hjblt hgt
    have hgeta : out[ja] = a := by
      rw [List.getElem?_eq_getElem hjalt] at hja
      exact Option.some_inj.mp hja
    have hgetb : out[jb] = b := by
      rw [List.getElem?_eq_getElem hjblt] at hjb
      exact Option.some_inj.mp hjb
    rw [hgeta, hgetb, hK, hP] at hR
    simp only [Option.getD_some] at hR
    have hneg := listCmp_neg P.data K.data
    have hPK' : listCmp P.data K.data = -1 := hPK
    omega

/-- Witness for the amended C1 theorem on a two-element thread. -/
theorem parent_precedes_child_in_output_witness :
    ∃ jb ja : Nat, ([⟨"p", none, some "00."⟩, ⟨"c", some "p", some "00/00."⟩] :
        List ThreadSortableItem)[jb]? = some ⟨"p", none, some "00."⟩ ∧
      ([⟨"p", none, some "00."⟩, ⟨"c", some "p", some "00/00."⟩] :
        List ThreadSortableItem)[ja]? = some ⟨"c", some "p", some "00/00."⟩ ∧
      jb < ja :=
  parent_precedes_child_in_output [⟨"p", none, none⟩, ⟨"c", some "p", none⟩]
    [⟨"p", none, some "00."⟩, ⟨"c", some "p", some "00/00."⟩]
    (by unfold UniqueIds; decide) rfl
    ⟨"c", some "p", some "00/00."⟩ (by decide)
    ⟨"p", none, some "00."⟩ (by decide) "p"
    ⟨⟨"c", some "p", none⟩, by decide, rfl, rfl⟩ rfl rfl

end ThreadSort
